import Mathlib

/-!
# SchemaLink — verification of the query-resolution pipeline

Shallow embedding of the SchemaLink repository (`core_logic/safe_connector.py`,
`core_logic/hybrid_retriever.py`, `core_logic/llm_agent.py`,
`core_logic/synthesis_module.py`, `config/settings.py`) together with proofs
about the embedded operations.

Python strings are modelled as `List Char`; Python dictionaries appearing in
rows are modelled as association lists; Python exceptions are modelled with
`Except`; external collaborators (the SQLAlchemy engine, the two search
providers, the LLM client) are modelled as function parameters so that the
theorems quantify over every possible behaviour of those collaborators.
-/

/-- A Python string, modelled as its list of characters. -/
abbrev PyStr := List Char

/-- Python's `str.strip()` (whitespace stripped from both ends; modelled for the
ASCII whitespace characters recognised by `Char.isWhitespace`). -/
def pyStrip (s : PyStr) : PyStr :=
  ((s.dropWhile Char.isWhitespace).reverse.dropWhile Char.isWhitespace).reverse

/-- Python's `str.upper()` (ASCII case mapping, which covers every statement the
pipeline manipulates). -/
def pyUpper (s : PyStr) : PyStr := s.map Char.toUpper

/-- Python's `str.lower()`. -/
def pyLower (s : PyStr) : PyStr := s.map Char.toLower

/-! ## `config/settings.py` -/

/-- `config/settings.py`: `MAX_RETRY_COUNT = 1`. -/
def MAX_RETRY_COUNT : Nat := 1

/-- `config/settings.py`: `K_SEARCH = 10`. -/
def K_SEARCH : Nat := 10

/-- `config/settings.py`: `RRF_K = 60`. -/
def RRF_K : Nat := 60

/-- `config/settings.py`: `TOKEN_BUDGET = 500`. -/
def TOKEN_BUDGET : Nat := 500

/-- `config/settings.py` / `safe_connector.py`: `MAX_QUERY_TIMEOUT_SECONDS = 5`. -/
def MAX_QUERY_TIMEOUT_SECONDS : Nat := 5

/-! ## `core_logic/safe_connector.py` -/

/-- A value stored in one column of a result row. -/
inductive PyValue where
  | vstr (s : PyStr)
  | vint (n : Int)
  | vnone
  deriving DecidableEq, Repr

/-- One result row: an ordered mapping from column name to value
(`dict(zip(column_names, row))` in the source). -/
abbrev Row := List (PyStr × PyValue)

/-- The behaviour of the underlying database engine on one statement, i.e. the
possible outcomes of the `try` block of `execute_read_only_query`:
a result set, an `OperationalError` whose text contains "statement timeout",
any other `OperationalError`, or any other exception. -/
inductive BackendOutcome where
  | rows (rs : List Row)
  | operationalTimeout (msg : PyStr)
  | operationalOther (msg : PyStr)
  | generalError (msg : PyStr)
  deriving DecidableEq

/-- The exceptions `execute_read_only_query` can raise:
`PermissionError` (security violation), `TimeoutError`, `ValueError`
(general SQL error), `RuntimeError` (unclassified internal failure). -/
inductive DbError where
  | securityViolation (msg : PyStr)
  | timeoutExceeded (msg : PyStr)
  | executionError (msg : PyStr)
  | internalFailure (msg : PyStr)
  deriving DecidableEq

/-- Message of the `PermissionError` raised by the security check. -/
def SECURITY_MSG : PyStr :=
  "Query failed security validation. Only read (SELECT/WITH) statements are allowed.".data

/-- Message of the `TimeoutError` raised on a statement timeout. -/
def TIMEOUT_MSG : PyStr :=
  "Query execution exceeded time limits (>5s). Please simplify your request.".data

/-- Step 2 of `SafeDatabaseConnector.execute_read_only_query`: the
`try`/`except` block classifying the engine's outcome
(`OperationalError` with "statement timeout" → `TimeoutError`; other
`OperationalError` → `ValueError`; any other exception → `RuntimeError`). -/
def dispatchBackendOutcome : BackendOutcome → Except DbError (List Row)
  | .rows rs => .ok rs
  | .operationalTimeout _ => .error (.timeoutExceeded TIMEOUT_MSG)
  | .operationalOther m =>
      .error (.executionError ("Database Execution Error: ".data ++ m))
  | .generalError m =>
      .error (.internalFailure ("A general error occurred during database operation: ".data ++ m))

/-- `SafeDatabaseConnector.execute_read_only_query`. The engine (connection,
execution, timeout machinery) is the parameter `backend`; step 1 is the
textual security check, performed before `backend` is consulted. -/
def execute_read_only_query (backend : PyStr → BackendOutcome) (sql_query : PyStr) :
    Except DbError (List Row) :=
  let normalized_query := pyUpper (pyStrip sql_query)
  if !("SELECT".data.isPrefixOf normalized_query || "WITH".data.isPrefixOf normalized_query) then
    .error (.securityViolation SECURITY_MSG)
  else
    dispatchBackendOutcome (backend sql_query)

/-- C1: any statement whose trimmed, upper-cased form does not begin with
`SELECT` or `WITH` is rejected with the security violation (`PermissionError`),
for every possible behaviour of the database engine — i.e. before any
connection, execution, or timeout logic runs. -/
theorem security_check_rejects_non_read
    (backend : PyStr → BackendOutcome) (sql_query : PyStr)
    (h : ("SELECT".data.isPrefixOf (pyUpper (pyStrip sql_query))
          || "WITH".data.isPrefixOf (pyUpper (pyStrip sql_query))) = false) :
    execute_read_only_query backend sql_query = .error (.securityViolation SECURITY_MSG) := by
  simp only [execute_read_only_query, h, Bool.not_false, if_pos]

/-- Witness for C1: `"DROP TABLE Orders;"` fails the prefix test and is
rejected with `SecurityViolation` even on an engine that would happily
return rows. -/
theorem security_check_rejects_non_read_witness :
    (("SELECT".data.isPrefixOf (pyUpper (pyStrip "DROP TABLE Orders;".data))
      || "WITH".data.isPrefixOf (pyUpper (pyStrip "DROP TABLE Orders;".data))) = false)
    ∧ execute_read_only_query (fun _ => .rows []) "DROP TABLE Orders;".data
        = .error (.securityViolation SECURITY_MSG) :=
  ⟨by decide, security_check_rejects_non_read _ _ (by decide)⟩

/-- C10: the security check is a textual prefix test, not a keyword test: as
soon as the trimmed upper-cased statement begins with the character sequence
`SELECT` or `WITH` — keyword or not — the `SecurityViolation` branch is
unreachable and the statement is handed to the execution machinery. -/
theorem security_check_is_prefix_test
    (backend : PyStr → BackendOutcome) (sql_query : PyStr)
    (h : ("SELECT".data.isPrefixOf (pyUpper (pyStrip sql_query))
          || "WITH".data.isPrefixOf (pyUpper (pyStrip sql_query))) = true) :
    execute_read_only_query backend sql_query = dispatchBackendOutcome (backend sql_query)
    ∧ ∀ m, execute_read_only_query backend sql_query ≠ .error (.securityViolation m) := by
  have hexec : execute_read_only_query backend sql_query
      = dispatchBackendOutcome (backend sql_query) := by
    simp only [execute_read_only_query, h, Bool.not_true, if_neg, Bool.false_eq_true,
      not_false_eq_true]
  refine ⟨hexec, fun m hcontra => ?_⟩
  rw [hexec] at hcontra
  cases hb : backend sql_query <;> rw [hb] at hcontra <;> simp [dispatchBackendOutcome] at hcontra

/-- Witness for C10: `"WITHDRAW x"` and `"SELECTION y"` pass the prefix test;
in particular `"WITHDRAW x"` reaches the engine and surfaces its timeout. -/
theorem security_check_is_prefix_test_witness :
    (("SELECT".data.isPrefixOf (pyUpper (pyStrip "WITHDRAW x".data))
      || "WITH".data.isPrefixOf (pyUpper (pyStrip "WITHDRAW x".data))) = true)
    ∧ (("SELECT".data.isPrefixOf (pyUpper (pyStrip "SELECTION y".data))
      || "WITH".data.isPrefixOf (pyUpper (pyStrip "SELECTION y".data))) = true)
    ∧ execute_read_only_query (fun _ => .operationalTimeout "t".data) "WITHDRAW x".data
        = dispatchBackendOutcome (.operationalTimeout "t".data)
    ∧ execute_read_only_query (fun _ => .rows []) "SELECTION y".data
        = dispatchBackendOutcome (.rows []) :=
  ⟨by decide, by decide,
    (security_check_is_prefix_test (fun _ => .operationalTimeout "t".data) _ (by decide)).1,
    (security_check_is_prefix_test (fun _ => .rows []) _ (by decide)).1⟩

/-! ## `core_logic/hybrid_retriever.py` -/

/-- One `fused_scores[doc_id] += score` step of `reciprocal_rank_fusion`.
The `defaultdict(float)` is modelled as an association list in insertion
order (Python dictionaries preserve insertion order). -/
def upsertScore (m : List (PyStr × ℚ)) (doc_id : PyStr) (score : ℚ) : List (PyStr × ℚ) :=
  match m with
  | [] => [(doc_id, score)]
  | (d, s) :: rest =>
    if d = doc_id then (d, s + score) :: rest
    else (d, s) :: upsertScore rest doc_id score

/-- The inner loop of `reciprocal_rank_fusion`:
`for rank, doc_id in enumerate(ranks): fused_scores[doc_id] += 1.0/(k+rank+1)`.
Scores are modelled in `ℚ`. -/
def addRanks (k : Nat) (m : List (PyStr × ℚ)) (ranks : List PyStr) : List (PyStr × ℚ) :=
  ranks.enum.foldl (fun acc p => upsertScore acc p.2 (1 / ((k : ℚ) + p.1 + 1))) m

/-- The accumulated `fused_scores` dictionary after both loops. -/
def fusedScores (search_results : List (List PyStr)) (k : Nat) : List (PyStr × ℚ) :=
  search_results.foldl (addRanks k) []

/-- Dictionary lookup `fused_scores[doc_id]` (with the `defaultdict` default). -/
def lookupScore : List (PyStr × ℚ) → PyStr → ℚ
  | [], _ => 0
  | (d', s') :: rest, d => if d' = d then s' else lookupScore rest d

/-- `reciprocal_rank_fusion`: build the fused-score dictionary, then
`sorted(fused_scores.keys(), key=lambda doc_id: fused_scores[doc_id], reverse=True)`.
Python's `sorted` is a stable sort; `reverse=True` keeps the stability, which
is exactly `List.mergeSort` with a `≥`-on-scores comparator. -/
def reciprocal_rank_fusion (search_results : List (List PyStr)) (k : Nat := RRF_K) :
    List PyStr :=
  let fused := fusedScores search_results k
  (fused.map Prod.fst).mergeSort
    (fun a b => decide (lookupScore fused b ≤ lookupScore fused a))

/-- Modelled from the spec (C5): "ties broken by first-seen order across the
concatenation of the input lists" — the identifiers in first-seen order. -/
def firstSeenOrder (l : List PyStr) : List PyStr :=
  l.foldl (fun ks d => if d ∈ ks then ks else ks ++ [d]) []

/-- 0-based rank of an identifier in a ranked list (position of its first
occurrence; used only to state the spec-side score). -/
def rankIn (d : PyStr) : List PyStr → Nat
  | [] => 0
  | x :: rest => if x = d then 0 else rankIn d rest + 1

/-- Modelled from the spec (C5): "score(d) = Σ over lists containing d of
1/(k + rank(d) + 1)", ranks 0-based. -/
def specScore (search_results : List (List PyStr)) (k : Nat) (d : PyStr) : ℚ :=
  ((search_results.filter (fun l => decide (d ∈ l))).map
    (fun l => 1 / ((k : ℚ) + rankIn d l + 1))).sum

/-- Modelled from the spec (C5): identifiers appearing in any list, in
first-seen order, stably sorted by descending spec score. -/
def rrf_spec (search_results : List (List PyStr)) (k : Nat) : List PyStr :=
  (firstSeenOrder search_results.flatten).mergeSort
    (fun a b => decide (specScore search_results k b ≤ specScore search_results k a))

/-- `HybridSearchRetriever._fetch_full_schema_content`; `get_content` is the
vector store's content lookup (empty string = missing). -/
def fetch_full_schema_content (get_content : PyStr → PyStr) (table_name : PyStr) : PyStr :=
  let content := get_content table_name
  if content = [] then
    "# Table: ".data ++ table_name ++ "\nError: Schema content missing from index.".data
  else content

/-- Step 3 of `HybridSearchRetriever.retrieve_schema_chunks`: the
context-window aggregation loop over the fused ranking, with running token
count, budget check and `break` on first overflow. -/
def assembleContext (get_content : PyStr → PyStr) :
    List PyStr → Nat → List (PyStr × PyStr) × Bool
  | [], _ => ([], false)
  | table_name :: rest, current_token_count =>
    let schema_content := fetch_full_schema_content get_content table_name
    let content_tokens := schema_content.length / 4
    if current_token_count + content_tokens ≤ TOKEN_BUDGET then
      let r := assembleContext get_content rest (current_token_count + content_tokens)
      ((table_name, schema_content) :: r.1, r.2)
    else
      ([], true)

/-- `HybridSearchRetriever.retrieve_schema_chunks`, given the two providers'
ranked lists: RRF fusion followed by budgeted context aggregation.
A chunk `{'table_name': t, 'content': c}` is modelled as the pair `(t, c)`. -/
def retrieve_schema_chunks (get_content : PyStr → PyStr)
    (vector_ranks keyword_ranks : List PyStr) : List (PyStr × PyStr) × Bool :=
  let fused_ranks := reciprocal_rank_fusion [vector_ranks, keyword_ranks] RRF_K
  assembleContext get_content fused_ranks 0

/-- `retrieve_schema_chunks` with the two provider calls in place.  The source
wraps neither `_semantic_search` nor `_keyword_search` in a `try`/`except`, so
a provider exception (modelled as `Except.error`) propagates out of
`retrieve_schema_chunks` unchanged. -/
def retrieve_schema_chunks_io (semantic keyword : Except PyStr (List PyStr))
    (get_content : PyStr → PyStr) : Except PyStr (List (PyStr × PyStr) × Bool) := do
  let vector_ranks ← semantic
  let keyword_ranks ← keyword
  pure (retrieve_schema_chunks get_content vector_ranks keyword_ranks)

theorem upsertScore_keys (m : List (PyStr × ℚ)) (d : PyStr) (s : ℚ) :
    (upsertScore m d s).map Prod.fst =
      if d ∈ m.map Prod.fst then m.map Prod.fst else m.map Prod.fst ++ [d] := by
  induction m with
  | nil => simp [upsertScore]
  | cons hd tl ih =>
    obtain ⟨d', s'⟩ := hd
    by_cases hdd : d' = d
    · subst hdd
      simp [upsertScore]
    · have hne : ¬(d = d') := fun h => hdd h.symm
      simp only [upsertScore, if_neg hdd, List.map_cons, List.mem_cons, hne, false_or, ih]
      by_cases hmem : d ∈ tl.map Prod.fst <;> simp [hmem]

theorem lookupScore_upsertScore_self (m : List (PyStr × ℚ)) (d : PyStr) (s : ℚ) :
    lookupScore (upsertScore m d s) d = lookupScore m d + s := by
  induction m with
  | nil => simp [upsertScore, lookupScore]
  | cons hd tl ih =>
    obtain ⟨d', s'⟩ := hd
    by_cases hdd : d' = d
    · subst hdd
      simp [upsertScore, lookupScore]
    · simp [upsertScore, lookupScore, hdd, ih]

theorem lookupScore_upsertScore_other (m : List (PyStr × ℚ)) (d e : PyStr) (s : ℚ)
    (h : e ≠ d) :
    lookupScore (upsertScore m d s) e = lookupScore m e := by
  have hde : ¬(d = e) := fun hh => h hh.symm
  induction m with
  | nil => simp [upsertScore, lookupScore, hde]
  | cons hd tl ih =>
    obtain ⟨d', s'⟩ := hd
    by_cases hdd : d' = d
    · subst hdd
      simp [upsertScore, lookupScore, hde]
    · simp [upsertScore, lookupScore, hdd, ih]

theorem lookup_addRanks_from (k : Nat) (ranks : List PyStr) :
    ranks.Nodup → ∀ (i : Nat) (m : List (PyStr × ℚ)) (d : PyStr),
    lookupScore ((ranks.enumFrom i).foldl
        (fun acc p => upsertScore acc p.2 (1 / ((k : ℚ) + p.1 + 1))) m) d
      = lookupScore m d +
        (if d ∈ ranks then 1 / ((k : ℚ) + (i + rankIn d ranks) + 1) else 0) := by
  induction ranks with
  | nil => intro _ i m d; simp
  | cons r rs ih =>
    intro hN i m d
    obtain ⟨hr, hN'⟩ := List.nodup_cons.mp hN
    rw [List.enumFrom_cons, List.foldl_cons]
    dsimp only
    rw [ih hN' (i + 1) _ d]
    by_cases hdr : d = r
    · subst hdr
      rw [if_neg hr, if_pos (List.mem_cons_self _ _), lookupScore_upsertScore_self]
      have hrk : rankIn d (d :: rs) = 0 := by simp [rankIn]
      rw [hrk]
      push_cast
      ring_nf
    · rw [lookupScore_upsertScore_other _ _ _ _ hdr]
      have hrd : ¬(r = d) := fun hh => hdr hh.symm
      have hrk : rankIn d (r :: rs) = rankIn d rs + 1 := by
        simp [rankIn, hrd]
      by_cases hmem : d ∈ rs
      · rw [if_pos hmem, if_pos (List.mem_cons_of_mem _ hmem), hrk]
        push_cast
        ring_nf
      · rw [if_neg hmem, if_neg (by simp [hdr, hmem])]

theorem lookup_addRanks (k : Nat) (m : List (PyStr × ℚ)) (ranks : List PyStr) (d : PyStr)
    (hN : ranks.Nodup) :
    lookupScore (addRanks k m ranks) d
      = lookupScore m d + (if d ∈ ranks then 1 / ((k : ℚ) + rankIn d ranks + 1) else 0) := by
  have h := lookup_addRanks_from k ranks hN 0 m d
  simpa [addRanks, List.enum] using h

theorem specScore_cons (l : List PyStr) (sr : List (List PyStr)) (k : Nat) (d : PyStr) :
    specScore (l :: sr) k d
      = (if d ∈ l then 1 / ((k : ℚ) + rankIn d l + 1) else 0) + specScore sr k d := by
  by_cases h : d ∈ l <;> simp [specScore, h]

theorem lookup_foldl_addRanks (k : Nat) (sr : List (List PyStr)) :
    (∀ l ∈ sr, l.Nodup) → ∀ (m : List (PyStr × ℚ)) (d : PyStr),
    lookupScore (sr.foldl (addRanks k) m) d = lookupScore m d + specScore sr k d := by
  induction sr with
  | nil => intro _ m d; simp [specScore, lookupScore]
  | cons l rest ih =>
    intro hN m d
    rw [List.foldl_cons, ih (fun x hx => hN x (List.mem_cons_of_mem _ hx)) _ d,
      lookup_addRanks _ _ _ _ (hN l (List.mem_cons_self _ _)), specScore_cons]
    ring

theorem lookup_fusedScores (sr : List (List PyStr)) (k : Nat) (d : PyStr)
    (hN : ∀ l ∈ sr, l.Nodup) :
    lookupScore (fusedScores sr k) d = specScore sr k d := by
  have h := lookup_foldl_addRanks k sr hN [] d
  simpa [fusedScores, lookupScore] using h

theorem keys_foldl_enumFrom (k : Nat) (ranks : List PyStr) :
    ∀ (i : Nat) (m : List (PyStr × ℚ)),
    (((ranks.enumFrom i).foldl
        (fun acc p => upsertScore acc p.2 (1 / ((k : ℚ) + p.1 + 1))) m).map Prod.fst)
      = ranks.foldl (fun ks d => if d ∈ ks then ks else ks ++ [d]) (m.map Prod.fst) := by
  induction ranks with
  | nil => intro i m; simp
  | cons r rs ih =>
    intro i m
    rw [List.enumFrom_cons, List.foldl_cons, List.foldl_cons]
    dsimp only
    rw [ih (i + 1), upsertScore_keys]

theorem keys_addRanks (k : Nat) (m : List (PyStr × ℚ)) (ranks : List PyStr) :
    (addRanks k m ranks).map Prod.fst
      = ranks.foldl (fun ks d => if d ∈ ks then ks else ks ++ [d]) (m.map Prod.fst) := by
  have h := keys_foldl_enumFrom k ranks 0 m
  simpa [addRanks, List.enum] using h

theorem keys_foldl_addRanks (k : Nat) (sr : List (List PyStr)) :
    ∀ (m : List (PyStr × ℚ)),
    ((sr.foldl (addRanks k) m).map Prod.fst)
      = sr.foldl
          (fun ks l => l.foldl (fun ks d => if d ∈ ks then ks else ks ++ [d]) ks)
          (m.map Prod.fst) := by
  induction sr with
  | nil => intro m; simp
  | cons l rest ih =>
    intro m
    rw [List.foldl_cons, List.foldl_cons, ih, keys_addRanks]

theorem keys_fusedScores (sr : List (List PyStr)) (k : Nat) :
    (fusedScores sr k).map Prod.fst = firstSeenOrder sr.flatten := by
  have h := keys_foldl_addRanks k sr []
  rw [firstSeenOrder, List.foldl_flatten]
  simpa [fusedScores] using h

theorem insFold_nodup (l : List PyStr) :
    ∀ (acc : List PyStr), acc.Nodup →
    (l.foldl (fun ks d => if d ∈ ks then ks else ks ++ [d]) acc).Nodup := by
  induction l with
  | nil => intro acc h; exact h
  | cons d rest ih =>
    intro acc h
    rw [List.foldl_cons]
    by_cases hd : d ∈ acc
    · simpa [hd] using ih acc h
    · have happ : (acc ++ [d]).Nodup := by
        simp [List.nodup_append, h, hd]
      simpa [hd] using ih _ happ

theorem firstSeenOrder_nodup (l : List PyStr) : (firstSeenOrder l).Nodup :=
  insFold_nodup l [] List.nodup_nil

theorem mem_insFold (l : List PyStr) :
    ∀ (acc : List PyStr) (d : PyStr),
    (d ∈ l.foldl (fun ks e => if e ∈ ks then ks else ks ++ [e]) acc ↔ d ∈ acc ∨ d ∈ l) := by
  induction l with
  | nil => intro acc d; simp
  | cons e rest ih =>
    intro acc d
    rw [List.foldl_cons]
    by_cases he : e ∈ acc
    · rw [if_pos he, ih]
      constructor
      · rintro (hacc | hrest)
        · exact Or.inl hacc
        · exact Or.inr (List.mem_cons_of_mem _ hrest)
      · rintro (hacc | hcons)
        · exact Or.inl hacc
        · rcases List.mem_cons.mp hcons with rfl | hrest
          · exact Or.inl he
          · exact Or.inr hrest
    · rw [if_neg he, ih]
      simp only [List.mem_append, List.mem_singleton, List.mem_cons]
      tauto

theorem mem_firstSeenOrder (l : List PyStr) (d : PyStr) :
    d ∈ firstSeenOrder l ↔ d ∈ l := by
  rw [firstSeenOrder, mem_insFold]
  simp

theorem reciprocal_rank_fusion_nodup (sr : List (List PyStr)) (k : Nat) :
    (reciprocal_rank_fusion sr k).Nodup := by
  have hperm := List.mergeSort_perm ((fusedScores sr k).map Prod.fst)
    (fun a b => decide (lookupScore (fusedScores sr k) b ≤ lookupScore (fusedScores sr k) a))
  have hkeys : ((fusedScores sr k).map Prod.fst).Nodup := by
    rw [keys_fusedScores]
    exact firstSeenOrder_nodup _
  exact hperm.symm.nodup hkeys

/-- C5: `reciprocal_rank_fusion` satisfies its spec contract: on ranked input
lists (each without duplicates) it returns exactly the identifiers appearing
in some input list — never any other — stably sorted (first-seen order across
the concatenation breaking ties) by descending spec score
`score(d) = Σ over lists containing d of 1/(k + rank(d) + 1)`; being a plain
function of its arguments, it is pure. -/
theorem reciprocal_rank_fusion_correct (search_results : List (List PyStr)) (k : Nat)
    (hN : ∀ l ∈ search_results, l.Nodup) :
    reciprocal_rank_fusion search_results k = rrf_spec search_results k
    ∧ ∀ d, (d ∈ reciprocal_rank_fusion search_results k ↔ ∃ l ∈ search_results, d ∈ l) := by
  constructor
  · rw [reciprocal_rank_fusion, rrf_spec]
    rw [keys_fusedScores]
    congr 1
    funext a b
    rw [lookup_fusedScores _ _ _ hN, lookup_fusedScores _ _ _ hN]
  · intro d
    have hperm := List.mergeSort_perm ((fusedScores search_results k).map Prod.fst)
      (fun a b => decide (lookupScore (fusedScores search_results k) b
        ≤ lookupScore (fusedScores search_results k) a))
    rw [reciprocal_rank_fusion, hperm.mem_iff, keys_fusedScores, mem_firstSeenOrder,
      List.mem_flatten]

/-- Witness for C5 at concrete ranked lists. -/
theorem reciprocal_rank_fusion_correct_witness :
    (∀ l ∈ [["Orders".data, "Customers".data, "Products".data],
            ["Customers".data, "Orders".data, "Shipments".data]], List.Nodup l)
    ∧ (reciprocal_rank_fusion
        [["Orders".data, "Customers".data, "Products".data],
         ["Customers".data, "Orders".data, "Shipments".data]] RRF_K
        = rrf_spec
            [["Orders".data, "Customers".data, "Products".data],
             ["Customers".data, "Orders".data, "Shipments".data]] RRF_K
      ∧ ∀ d, (d ∈ reciprocal_rank_fusion
          [["Orders".data, "Customers".data, "Products".data],
           ["Customers".data, "Orders".data, "Shipments".data]] RRF_K
        ↔ ∃ l ∈ [["Orders".data, "Customers".data, "Products".data],
                 ["Customers".data, "Orders".data, "Shipments".data]], d ∈ l)) :=
  ⟨by decide, reciprocal_rank_fusion_correct _ _ (by decide)⟩

theorem assembleContext_budget (g : PyStr → PyStr) :
    ∀ (l : List PyStr) (cur : Nat), cur ≤ TOKEN_BUDGET →
    cur + (((assembleContext g l cur).1.map (fun c => c.2.length / 4)).sum) ≤ TOKEN_BUDGET := by
  intro l
  induction l with
  | nil =>
    intro cur h
    simpa [assembleContext] using h
  | cons t rest ih =>
    intro cur h
    rw [assembleContext]
    by_cases hfit : cur + (fetch_full_schema_content g t).length / 4 ≤ TOKEN_BUDGET
    · have hrec := ih _ hfit
      simp only [if_pos hfit, List.map_cons, List.sum_cons]
      omega
    · simp only [if_neg hfit, List.map_nil, List.sum_nil]
      omega

theorem assembleContext_truncation (g : PyStr → PyStr) :
    ∀ (l : List PyStr), l.Nodup → ∀ (cur : Nat),
    ((assembleContext g l cur).2 = true ↔
      ∃ t ∈ l, t ∉ (assembleContext g l cur).1.map Prod.fst) := by
  intro l
  induction l with
  | nil =>
    intro _ cur
    simp [assembleContext]
  | cons t rest ih =>
    intro hN cur
    obtain ⟨ht, hN'⟩ := List.nodup_cons.mp hN
    rw [assembleContext]
    by_cases hfit : cur + (fetch_full_schema_content g t).length / 4 ≤ TOKEN_BUDGET
    · simp only [if_pos hfit]
      constructor
      · intro htr
        obtain ⟨s, hs, hnot⟩ := (ih hN' _).mp htr
        refine ⟨s, List.mem_cons_of_mem _ hs, ?_⟩
        simp only [List.map_cons, List.mem_cons, not_or]
        exact ⟨fun hst => ht (hst ▸ hs), hnot⟩
      · rintro ⟨s, hsmem, hnot⟩
        rcases List.mem_cons.mp hsmem with rfl | hs
        · exfalso
          apply hnot
          simp
        · exact (ih hN' _).mpr ⟨s, hs, fun hmem => hnot (by
            simp only [List.map_cons, List.mem_cons]
            exact Or.inr hmem)⟩
    · simp only [if_neg hfit]
      constructor
      · intro _
        exact ⟨t, List.mem_cons_self _ _, by simp⟩
      · intro _
        trivial

/-- C4: the context returned by `retrieve_schema_chunks` stays within the
token budget — the estimated costs (`len(content) // 4`) of the included
chunks sum to at most `TOKEN_BUDGET` — and the truncation flag is `true`
exactly when some identifier of the fused ranking was left out of the
returned context. -/
theorem retrieve_schema_chunks_budget_truncation (get_content : PyStr → PyStr)
    (vector_ranks keyword_ranks : List PyStr) :
    (((retrieve_schema_chunks get_content vector_ranks keyword_ranks).1.map
        (fun c => c.2.length / 4)).sum ≤ TOKEN_BUDGET)
    ∧ ((retrieve_schema_chunks get_content vector_ranks keyword_ranks).2 = true ↔
        ∃ t ∈ reciprocal_rank_fusion [vector_ranks, keyword_ranks] RRF_K,
          t ∉ (retrieve_schema_chunks get_content vector_ranks keyword_ranks).1.map Prod.fst) := by
  constructor
  · have h := assembleContext_budget get_content
      (reciprocal_rank_fusion [vector_ranks, keyword_ranks] RRF_K) 0 (by simp [TOKEN_BUDGET])
    simpa [retrieve_schema_chunks] using h
  · have h := assembleContext_truncation get_content
      (reciprocal_rank_fusion [vector_ranks, keyword_ranks] RRF_K)
      (reciprocal_rank_fusion_nodup [vector_ranks, keyword_ranks] RRF_K) 0
    simpa [retrieve_schema_chunks] using h

/-- C6 (counterexample): a failing provider does not contribute an empty
list — its error aborts retrieval.  With the semantic provider failing and
the lexical provider succeeding, `retrieve_schema_chunks` surfaces the
provider's error instead of any context. -/
theorem retriever_provider_error_aborts :
    retrieve_schema_chunks_io (.error "vector provider down".data)
        (.ok ["Orders".data]) (fun _ => "content".data)
      = .error "vector provider down".data
    ∧ (retrieve_schema_chunks_io (.error "vector provider down".data)
        (.ok ["Orders".data]) (fun _ => "content".data)).isOk = false := by
  constructor
  · rfl
  · rfl

/-- C6 (amended): since neither provider call is guarded by a `try`/`except`,
a provider error propagates out of `retrieve_schema_chunks` and aborts
retrieval — there is no empty-list fallback; only when both providers succeed
does retrieval proceed to fusion and context assembly. -/
theorem retriever_provider_error_propagates (e : PyStr)
    (kw : Except PyStr (List PyStr)) (v w : List PyStr) (get_content : PyStr → PyStr) :
    retrieve_schema_chunks_io (.error e) kw get_content = .error e
    ∧ retrieve_schema_chunks_io (.ok v) (.error e) get_content = .error e
    ∧ retrieve_schema_chunks_io (.ok v) (.ok w) get_content
        = .ok (retrieve_schema_chunks get_content v w) := by
  exact ⟨rfl, rfl, rfl⟩

/-! ## `core_logic/llm_agent.py` -/

/-- Outcome of one guarded execution attempt as seen by `LLMAgent.run`'s
`try`/`except` clause: success, or one of the three caught exception classes
(`ValueError`, `PermissionError`, `TimeoutError`), or an exception outside the
caught tuple (such as the connector's `RuntimeError`), which the loop does not
handle. -/
inductive ExecOutcome where
  | ok (result_set : List Row)
  | valueError (msg : PyStr)
  | permissionError (msg : PyStr)
  | timeoutError (msg : PyStr)
  | uncaughtError (msg : PyStr)
  deriving DecidableEq

/-- How an execution through `SafeDatabaseConnector.execute_read_only_query`
surfaces inside `LLMAgent.run`: the three declared exception classes are the
caught ones; the connector's `RuntimeError` is outside the caught tuple. -/
def execOfConnector (backend : PyStr → BackendOutcome) (sql : PyStr) : ExecOutcome :=
  match execute_read_only_query backend sql with
  | .ok rs => .ok rs
  | .error (.securityViolation m) => .permissionError m
  | .error (.timeoutExceeded m) => .timeoutError m
  | .error (.executionError m) => .valueError m
  | .error (.internalFailure m) => .uncaughtError m

/-- The `full_result` dictionary of `LLMAgent.run` (latency bookkeeping, which
is wall-clock only, is omitted; fields absent from the dictionary are `none`). -/
structure AgentResult where
  status : PyStr
  answer : PyStr
  sql_query : Option PyStr
  result_set : Option (List Row)
  error_details : Option (PyStr × PyStr)
  deriving DecidableEq

/-- The initial `full_result` of `LLMAgent.run`. -/
def initResult : AgentResult :=
  ⟨"failure".data, "Could not generate or execute a valid query.".data, none, none, none⟩

/-- The `for attempt in range(MAX_RETRY_COUNT + 1)` loop of `LLMAgent.run`.
`gen attempt` is the parsed result of `_generate_sql` on that attempt (`none`
models a parse failure); `exec attempt sql` the guarded execution; both are
arbitrary functions, so the theorems below quantify over every behaviour of
the external generator and storage layer.  The result pairs the loop's
outcome (`Except.error` models an exception escaping the loop) with the
number of generation attempts performed. -/
def run_attempts (gen : Nat → Option PyStr) (exec : Nat → PyStr → ExecOutcome) :
    AgentResult → List Nat → (Except PyStr AgentResult) × Nat
  | acc, [] => (.ok acc, 0)
  | acc, attempt :: rest =>
    match gen attempt with
    | none =>
      let acc' := { acc with
        answer := "LLM failed to generate parseable SQL after ".data
          ++ Nat.toDigits 10 attempt ++ " attempts.".data }
      let r := run_attempts gen exec acc' rest
      (r.1, r.2 + 1)
    | some sql_query =>
      match exec attempt sql_query with
      | .ok result_set =>
        (.ok { acc with
                status := "success".data,
                sql_query := some sql_query,
                result_set := some result_set }, 1)
      | .permissionError m =>
        (.ok ⟨"failure".data,
          "Query execution terminated by security guardrail: ".data ++ m,
          none, none, none⟩, 1)
      | .timeoutError m =>
        (.ok ⟨"failure".data, m, none, none, none⟩, 1)
      | .valueError m =>
        let acc' := { acc with error_details := some (sql_query, m) }
        if attempt = MAX_RETRY_COUNT then
          (.ok { acc' with
            answer := "SQL failed execution after max retries. Final error: ".data ++ m }, 1)
        else
          let r := run_attempts gen exec acc' rest
          (r.1, r.2 + 1)
      | .uncaughtError m => (.error m, 1)

/-- `LLMAgent.run` after retrieval: `schema_context` is the context returned
by the retriever (the empty-context early return included), then the
generation/execution loop. -/
def run (schema_context : List (PyStr × PyStr)) (gen : Nat → Option PyStr)
    (exec : Nat → PyStr → ExecOutcome) : (Except PyStr AgentResult) × Nat :=
  if schema_context = [] then
    (.ok ⟨"failure".data, "Schema retrieval failed. Context is empty.".data,
      none, none, none⟩, 0)
  else
    run_attempts gen exec initResult (List.range (MAX_RETRY_COUNT + 1))

/-- C2: on the first execution attempt that fails with `SecurityViolation`
(`PermissionError`) or `TimeoutExceeded` (`TimeoutError`), the loop returns a
failure outcome at once: exactly one generation attempt is counted for this
iteration, the remaining attempts (`rest`) and remaining generator behaviour
are never consulted, and the returned outcome carries no `error_details`
feedback. -/
theorem terminal_guardrail_errors_immediate (gen : Nat → Option PyStr)
    (exec : Nat → PyStr → ExecOutcome) (acc : AgentResult)
    (attempt : Nat) (rest : List Nat) (sql m : PyStr)
    (hgen : gen attempt = some sql) :
    (exec attempt sql = .permissionError m →
      run_attempts gen exec acc (attempt :: rest)
        = (.ok ⟨"failure".data,
            "Query execution terminated by security guardrail: ".data ++ m,
            none, none, none⟩, 1))
    ∧ (exec attempt sql = .timeoutError m →
      run_attempts gen exec acc (attempt :: rest)
        = (.ok ⟨"failure".data, m, none, none, none⟩, 1)) := by
  constructor <;> intro hexec <;> simp only [run_attempts, hgen, hexec]

/-- Witness for C2 at a concrete generator, two concrete executors and a
non-trivial remaining retry budget. -/
theorem terminal_guardrail_errors_immediate_witness :
    ((fun _ : Nat => some "SELECT 1;".data) 0 = some "SELECT 1;".data)
    ∧ run_attempts (fun _ => some "SELECT 1;".data)
        (fun _ _ => .permissionError SECURITY_MSG) initResult [0, 1]
        = (.ok ⟨"failure".data,
            "Query execution terminated by security guardrail: ".data ++ SECURITY_MSG,
            none, none, none⟩, 1)
    ∧ run_attempts (fun _ => some "SELECT 1;".data)
        (fun _ _ => .timeoutError TIMEOUT_MSG) initResult [0, 1]
        = (.ok ⟨"failure".data, TIMEOUT_MSG, none, none, none⟩, 1) :=
  ⟨rfl,
    (terminal_guardrail_errors_immediate _ _ initResult 0 [1] _ SECURITY_MSG rfl).1 rfl,
    (terminal_guardrail_errors_immediate _ _ initResult 0 [1] _ TIMEOUT_MSG rfl).2 rfl⟩

theorem run_attempts_count (gen : Nat → Option PyStr) (exec : Nat → PyStr → ExecOutcome) :
    ∀ (l : List Nat) (acc : AgentResult), (run_attempts gen exec acc l).2 ≤ l.length := by
  intro l
  induction l with
  | nil =>
    intro acc
    simp [run_attempts]
  | cons a rest ih =>
    intro acc
    simp only [run_attempts, List.length_cons]
    cases hg : gen a with
    | none =>
      simp only [hg]
      simpa using Nat.add_le_add_right (ih _) 1
    | some sql =>
      simp only [hg]
      cases he : exec a sql with
      | ok rs => simp [he]
      | permissionError m => simp [he]
      | timeoutError m => simp [he]
      | uncaughtError m => simp [he]
      | valueError m =>
        by_cases hA : a = MAX_RETRY_COUNT
        · simp [he, hA]
        · simpa [he, hA] using Nat.add_le_add_right (ih _) 1

theorem run_attempts_status (gen : Nat → Option PyStr) (exec : Nat → PyStr → ExecOutcome)
    (hnc : ∀ i sql m, exec i sql ≠ ExecOutcome.uncaughtError m) :
    ∀ (l : List Nat) (acc : AgentResult),
    (acc.status = "success".data ∨ acc.status = "failure".data) →
    ∃ r, (run_attempts gen exec acc l).1 = .ok r
      ∧ (r.status = "success".data ∨ r.status = "failure".data) := by
  intro l
  induction l with
  | nil =>
    intro acc hacc
    exact ⟨acc, rfl, hacc⟩
  | cons a rest ih =>
    intro acc hacc
    simp only [run_attempts]
    cases hg : gen a with
    | none =>
      simp only [hg]
      exact ih _ (by simpa using hacc)
    | some sql =>
      simp only [hg]
      cases he : exec a sql with
      | ok rs =>
        simp only [he]
        exact ⟨_, rfl, Or.inl rfl⟩
      | permissionError m =>
        simp only [he]
        exact ⟨_, rfl, Or.inr rfl⟩
      | timeoutError m =>
        simp only [he]
        exact ⟨_, rfl, Or.inr rfl⟩
      | valueError m =>
        by_cases hA : a = MAX_RETRY_COUNT
        · simp only [he, hA, if_pos]
          exact ⟨_, rfl, by simpa using hacc⟩
        · simp only [he, if_neg hA]
          exact ih _ (by simpa using hacc)
      | uncaughtError m => exact absurd he (hnc a sql m)

theorem run_attempts_shape (gen : Nat → Option PyStr) (exec : Nat → PyStr → ExecOutcome)
    (hnc : ∀ i sql m, exec i sql ≠ ExecOutcome.uncaughtError m)
    (htm : ∀ i sql m, exec i sql = ExecOutcome.timeoutError m → m ≠ []) :
    ∀ (l : List Nat) (acc : AgentResult),
    (acc.status = "success".data ∨ acc.status = "failure".data) → acc.answer ≠ [] →
    ∃ r, (run_attempts gen exec acc l).1 = .ok r
      ∧ (r.status = "success".data ∨ r.status = "failure".data) ∧ r.answer ≠ [] := by
  intro l
  induction l with
  | nil =>
    intro acc hacc hans
    exact ⟨acc, rfl, hacc, hans⟩
  | cons a rest ih =>
    intro acc hacc hans
    simp only [run_attempts]
    cases hg : gen a with
    | none =>
      simp only [hg]
      exact ih _ (by simpa using hacc) (by simp)
    | some sql =>
      simp only [hg]
      cases he : exec a sql with
      | ok rs =>
        simp only [he]
        exact ⟨_, rfl, Or.inl rfl, hans⟩
      | permissionError m =>
        simp only [he]
        exact ⟨_, rfl, Or.inr rfl, by simp⟩
      | timeoutError m =>
        simp only [he]
        exact ⟨_, rfl, Or.inr rfl, htm a sql m he⟩
      | valueError m =>
        by_cases hA : a = MAX_RETRY_COUNT
        · simp only [he, hA, if_pos]
          exact ⟨_, rfl, by simpa using hacc, by simp⟩
        · simp only [he, if_neg hA]
          exact ih _ (by simpa using hacc) (by simpa using hans)
      | uncaughtError m => exact absurd he (hnc a sql m)

theorem execute_internalFailure_backend (backend : PyStr → BackendOutcome) (sql m : PyStr) :
    execute_read_only_query backend sql = .error (.internalFailure m) →
    ∃ msg, backend sql = .generalError msg := by
  rw [execute_read_only_query]
  by_cases hchk : ("SELECT".data.isPrefixOf (pyUpper (pyStrip sql))
      || "WITH".data.isPrefixOf (pyUpper (pyStrip sql))) = true
  · simp only [hchk, Bool.not_true, Bool.false_eq_true, if_neg, not_false_eq_true]
    cases hbk : backend sql with
    | rows rs => simp [dispatchBackendOutcome]
    | operationalTimeout msg => simp [dispatchBackendOutcome]
    | operationalOther msg => simp [dispatchBackendOutcome]
    | generalError msg => exact fun _ => ⟨msg, rfl⟩
  · rw [Bool.not_eq_true] at hchk
    simp only [hchk, Bool.not_false, if_pos]
    simp

theorem execute_timeout_msg (backend : PyStr → BackendOutcome) (sql m : PyStr) :
    execute_read_only_query backend sql = .error (.timeoutExceeded m) → m = TIMEOUT_MSG := by
  rw [execute_read_only_query]
  by_cases hchk : ("SELECT".data.isPrefixOf (pyUpper (pyStrip sql))
      || "WITH".data.isPrefixOf (pyUpper (pyStrip sql))) = true
  · simp only [hchk, Bool.not_true, Bool.false_eq_true, if_neg, not_false_eq_true]
    cases hbk : backend sql with
    | rows rs => simp [dispatchBackendOutcome]
    | operationalTimeout msg =>
      simp only [dispatchBackendOutcome, Except.error.injEq, DbError.timeoutExceeded.injEq]
      exact fun h => h.symm
    | operationalOther msg => simp [dispatchBackendOutcome]
    | generalError msg => simp [dispatchBackendOutcome]
  · rw [Bool.not_eq_true] at hchk
    simp only [hchk, Bool.not_false, if_pos]
    simp

theorem execOfConnector_not_uncaught (backend : PyStr → BackendOutcome)
    (hb : ∀ sql m, backend sql ≠ .generalError m) (sql m : PyStr) :
    execOfConnector backend sql ≠ ExecOutcome.uncaughtError m := by
  rw [execOfConnector]
  cases hres : execute_read_only_query backend sql with
  | ok rs => simp
  | error e =>
    cases e with
    | securityViolation msg => simp
    | timeoutExceeded msg => simp
    | executionError msg => simp
    | internalFailure msg =>
      intro _
      obtain ⟨msg', hm⟩ := execute_internalFailure_backend backend sql msg hres
      exact absurd hm (hb sql msg')

theorem execOfConnector_timeout_msg (backend : PyStr → BackendOutcome) (sql m : PyStr) :
    execOfConnector backend sql = ExecOutcome.timeoutError m → m = TIMEOUT_MSG := by
  rw [execOfConnector]
  cases hres : execute_read_only_query backend sql with
  | ok rs => simp
  | error e =>
    cases e with
    | securityViolation msg => simp
    | timeoutExceeded msg =>
      simp only [ExecOutcome.timeoutError.injEq]
      intro h
      rw [← h]
      exact execute_timeout_msg backend sql msg hres
    | executionError msg => simp
    | internalFailure msg => simp

/-- C3 (counterexample): the loop does not always terminate in a success or
failure outcome — when the storage layer raises an unclassified
`RuntimeError` (here the real connector classifying an unexpected engine
failure), `run` terminates by propagating the exception, returning no
outcome at all. -/
theorem correction_loop_uncaught_counterexample :
    (run [("Orders".data, "# Table: Orders".data)]
        (fun _ => some "SELECT 1;".data)
        (fun _ sql => execOfConnector (fun _ => .generalError "disk failure".data) sql)).1
      = .error ("A general error occurred during database operation: ".data
          ++ "disk failure".data)
    ∧ ((run [("Orders".data, "# Table: Orders".data)]
        (fun _ => some "SELECT 1;".data)
        (fun _ sql => execOfConnector (fun _ => .generalError "disk failure".data) sql)).1).isOk
      = false :=
  ⟨rfl, rfl⟩

/-- C3 (amended): for every sequence of generation/parse outcomes and every
execution behaviour, the loop performs at most `MAX_RETRY_COUNT + 1 = 2`
generation attempts and always terminates; whenever every execution outcome
is one the loop classifies (success, SQL error, security violation, timeout)
it terminates in a structured success or failure outcome — an unclassified
internal error instead terminates the request by propagating. -/
theorem correction_loop_bounded_and_terminates (schema_context : List (PyStr × PyStr))
    (gen : Nat → Option PyStr) (exec : Nat → PyStr → ExecOutcome) :
    (run schema_context gen exec).2 ≤ MAX_RETRY_COUNT + 1
    ∧ ((∀ i sql m, exec i sql ≠ ExecOutcome.uncaughtError m) →
        ∃ r, (run schema_context gen exec).1 = .ok r
          ∧ (r.status = "success".data ∨ r.status = "failure".data)) := by
  constructor
  · rw [run]
    by_cases hc : schema_context = []
    · simp [hc]
    · rw [if_neg hc]
      have h := run_attempts_count gen exec (List.range (MAX_RETRY_COUNT + 1)) initResult
      simpa using h
  · intro hnc
    rw [run]
    by_cases hc : schema_context = []
    · rw [if_pos hc]
      exact ⟨_, rfl, Or.inr rfl⟩
    · rw [if_neg hc]
      exact run_attempts_status gen exec hnc _ initResult (Or.inr rfl)

/-- Witness for C3 (amended) at a concrete context, generator and executor. -/
theorem correction_loop_bounded_and_terminates_witness :
    (run [("Orders".data, "content".data)] (fun _ => (none : Option PyStr))
        (fun _ _ => ExecOutcome.ok [])).2 ≤ MAX_RETRY_COUNT + 1
    ∧ (∀ (i : Nat) (sql m : PyStr),
        (fun _ _ => ExecOutcome.ok []) i sql ≠ ExecOutcome.uncaughtError m)
    ∧ ∃ r, (run [("Orders".data, "content".data)] (fun _ => (none : Option PyStr))
          (fun _ _ => ExecOutcome.ok [])).1 = .ok r
        ∧ (r.status = "success".data ∨ r.status = "failure".data) :=
  ⟨(correction_loop_bounded_and_terminates _ _ _).1,
   fun _ _ _ h => ExecOutcome.noConfusion h,
   (correction_loop_bounded_and_terminates _ _ _).2 (fun _ _ _ h => ExecOutcome.noConfusion h)⟩

/-- C7 (counterexample): `run` does let an internal exception escape — with
the storage layer raising the connector's unclassified `RuntimeError`
(`InternalFailure`), the exception propagates to the caller instead of being
normalized into a `status=failure` outcome. -/
theorem run_internal_error_escapes :
    (run [("Customers".data, "# Table: Customers".data)]
        (fun _ => some "SELECT customer_name FROM Customers;".data)
        (fun _ sql =>
          execOfConnector (fun _ => .generalError "connection pool exhausted".data) sql)).1
      = .error ("A general error occurred during database operation: ".data
          ++ "connection pool exhausted".data)
    ∧ ((run [("Customers".data, "# Table: Customers".data)]
        (fun _ => some "SELECT customer_name FROM Customers;".data)
        (fun _ sql =>
          execOfConnector (fun _ => .generalError "connection pool exhausted".data) sql)).1).isOk
      = false :=
  ⟨rfl, rfl⟩

/-- C7 (amended): as long as the storage layer fails only with the classified
errors (`ValueError`, `PermissionError`, `TimeoutError` — i.e. the engine
never hits the connector's `RuntimeError` path), every run ends in a
structured outcome with status `success` or `failure` and a nonempty
human-readable answer; an unclassified `InternalFailure` instead escapes to
the caller uncaught. -/
theorem run_normalizes_classified_failures (schema_context : List (PyStr × PyStr))
    (gen : Nat → Option PyStr) (backend : PyStr → BackendOutcome)
    (hb : ∀ sql m, backend sql ≠ .generalError m) :
    ∃ r, (run schema_context gen (fun _ sql => execOfConnector backend sql)).1 = .ok r
      ∧ (r.status = "success".data ∨ r.status = "failure".data)
      ∧ r.answer ≠ [] := by
  rw [run]
  by_cases hc : schema_context = []
  · rw [if_pos hc]
    exact ⟨_, rfl, Or.inr rfl, by decide⟩
  · rw [if_neg hc]
    exact run_attempts_shape _ _
      (fun _ sql m => execOfConnector_not_uncaught backend hb sql m)
      (fun _ sql m he => by
        rw [execOfConnector_timeout_msg backend sql m he]
        decide)
      _ initResult (Or.inr rfl) (by decide)

/-- Witness for C7 (amended) at a concrete context, generator and a backend
that always returns rows. -/
theorem run_normalizes_classified_failures_witness :
    (∀ sql m, (fun _ : PyStr => BackendOutcome.rows []) sql ≠ .generalError m)
    ∧ ∃ r, (run [("Orders".data, "content".data)] (fun _ => some "SELECT 1;".data)
          (fun _ sql => execOfConnector (fun _ => .rows []) sql)).1 = .ok r
        ∧ (r.status = "success".data ∨ r.status = "failure".data)
        ∧ r.answer ≠ [] :=
  ⟨fun _ _ h => BackendOutcome.noConfusion h,
   run_normalizes_classified_failures _ _ _ (fun _ _ h => BackendOutcome.noConfusion h)⟩

/-! ## `core_logic/synthesis_module.py` — `PostQueryScrubber`

The two PII patterns of the source are regular expressions in which every
quantifier ranges over a single character class.  They are embedded as an AST
with exactly those constructs, together with a backtracking matcher `mrun`
that enumerates the possible match remainders in Python's backtracking
preference order (first alternative first, greedy quantifiers longest-first,
lazy quantifiers shortest-first); `re.sub`/`re.search` are then modelled on
top of it. -/

/-- Regular-expression AST; quantifiers only over character classes, which is
all the two source patterns need. -/
inductive RE where
  | epsR
  | cls (p : Char → Bool)
  | seqR (a b : RE)
  | altR (a b : RE)
  | starCls (p : Char → Bool)
  | optLazyCls (p : Char → Bool)
  | repCls (p : Char → Bool) (n : Nat)
  | atLeastCls (p : Char → Bool) (n : Nat)

/-- Declarative semantics: `DeclMatch r u` means the pattern `r` matches
exactly the character list `u`. -/
def DeclMatch : RE → List Char → Prop
  | .epsR, l => l = []
  | .cls p, l => ∃ c, l = [c] ∧ p c = true
  | .seqR a b, l => ∃ u v, l = u ++ v ∧ DeclMatch a u ∧ DeclMatch b v
  | .altR a b, l => DeclMatch a l ∨ DeclMatch b l
  | .starCls p, l => ∀ c ∈ l, p c = true
  | .optLazyCls p, l => l = [] ∨ ∃ c, l = [c] ∧ p c = true
  | .repCls p n, l => l.length = n ∧ ∀ c ∈ l, p c = true
  | .atLeastCls p n, l => n ≤ l.length ∧ ∀ c ∈ l, p c = true

/-- Remainders of greedily matching `p*` at the front of the input, longest
consumption first. -/
def greedySuffixes (p : Char → Bool) : List Char → List (List Char)
  | [] => [[]]
  | c :: rest => if p c then greedySuffixes p rest ++ [c :: rest] else [c :: rest]

/-- Consume exactly `n` characters of class `p`. -/
def dropExact (p : Char → Bool) : Nat → List Char → Option (List Char)
  | 0, cs => some cs
  | _ + 1, [] => none
  | n + 1, c :: rest => if p c then dropExact p n rest else none

/-- Backtracking matcher: all remainders after matching `r` at the front of
the input, in Python's backtracking preference order. -/
def mrun : RE → List Char → List (List Char)
  | .epsR, cs => [cs]
  | .cls _, [] => []
  | .cls p, c :: rest => if p c then [rest] else []
  | .seqR a b, cs => (mrun a cs).flatMap (fun t => mrun b t)
  | .altR a b, cs => mrun a cs ++ mrun b cs
  | .starCls p, cs => greedySuffixes p cs
  | .optLazyCls _, [] => [[]]
  | .optLazyCls p, c :: rest => if p c then [c :: rest, rest] else [c :: rest]
  | .repCls p n, cs =>
    match dropExact p n cs with
    | some rest => [rest]
    | none => []
  | .atLeastCls p n, cs =>
    match dropExact p n cs with
    | some rest => greedySuffixes p rest
    | none => []

/-- `re.search(r, t)` as a Boolean: scan positions left to right. -/
def search (r : RE) : List Char → Bool
  | [] => !(mrun r []).isEmpty
  | cs@(_ :: rest) => !(mrun r cs).isEmpty || search r rest

/-- Length of the match `re` machinery would choose at the current position:
the first remainder in preference order. -/
def findLen (r : RE) (cs : List Char) : Option Nat :=
  ((mrun r cs).head?).map (fun t => cs.length - t.length)

theorem mem_greedySuffixes (p : Char → Bool) :
    ∀ (cs t : List Char),
    t ∈ greedySuffixes p cs ↔ ∃ u, cs = u ++ t ∧ ∀ c ∈ u, p c = true := by
  intro cs
  induction cs with
  | nil =>
    intro t
    simp only [greedySuffixes, List.mem_singleton]
    constructor
    · rintro rfl
      exact ⟨[], rfl, by simp⟩
    · rintro ⟨u, hu, _⟩
      rcases List.append_eq_nil.mp hu.symm with ⟨rfl, rfl⟩
      rfl
  | cons c rest ih =>
    intro t
    by_cases hc : p c = true
    · simp only [greedySuffixes, hc, if_pos, List.mem_append, List.mem_singleton, ih]
      constructor
      · rintro (⟨u, hu, hall⟩ | rfl)
        · exact ⟨c :: u, by simp [hu], by
            intro x hx
            rcases List.mem_cons.mp hx with rfl | hx'
            · exact hc
            · exact hall x hx'⟩
        · exact ⟨[], rfl, by simp⟩
      · rintro ⟨u, hu, hall⟩
        cases u with
        | nil =>
          right
          simpa using hu.symm
        | cons x u' =>
          left
          obtain ⟨rfl, hrest⟩ : x = c ∧ rest = u' ++ t := by
            have := hu
            simp only [List.cons_append, List.cons.injEq] at this
            exact ⟨this.1.symm, this.2⟩
          exact ⟨u', hrest, fun y hy => hall y (List.mem_cons_of_mem _ hy)⟩
    · simp only [greedySuffixes, hc, if_neg, Bool.false_eq_true, not_false_eq_true,
        List.mem_singleton]
      constructor
      · rintro rfl
        exact ⟨[], rfl, by simp⟩
      · rintro ⟨u, hu, hall⟩
        cases u with
        | nil => simpa using hu.symm
        | cons x u' =>
          exfalso
          have hx : x = c := by
            have := hu
            simp only [List.cons_append, List.cons.injEq] at this
            exact this.1.symm
          exact hc (hx ▸ hall x (List.mem_cons_self _ _))

theorem dropExact_eq_some (p : Char → Bool) :
    ∀ (n : Nat) (cs t : List Char),
    dropExact p n cs = some t ↔ ∃ u, cs = u ++ t ∧ u.length = n ∧ ∀ c ∈ u, p c = true := by
  intro n
  induction n with
  | zero =>
    intro cs t
    simp only [dropExact, Option.some.injEq]
    constructor
    · rintro rfl
      exact ⟨[], rfl, rfl, by simp⟩
    · rintro ⟨u, hu, hlen, _⟩
      rw [List.length_eq_zero.mp hlen] at hu
      simpa using hu
  | succ n ih =>
    intro cs t
    cases cs with
    | nil =>
      simp only [dropExact]
      constructor
      · intro h
        exact absurd h (by simp)
      · rintro ⟨u, hu, hlen, _⟩
        rcases List.append_eq_nil.mp hu.symm with ⟨rfl, _⟩
        simp at hlen
    | cons c rest =>
      by_cases hc : p c = true
      · simp only [dropExact, hc, if_pos, ih]
        constructor
        · rintro ⟨u, hu, hlen, hall⟩
          exact ⟨c :: u, by simp [hu], by simp [hlen], by
            intro x hx
            rcases List.mem_cons.mp hx with rfl | hx'
            · exact hc
            · exact hall x hx'⟩
        · rintro ⟨u, hu, hlen, hall⟩
          cases u with
          | nil => simp at hlen
          | cons x u' =>
            obtain ⟨hx, hrest⟩ : x = c ∧ rest = u' ++ t := by
              have := hu
              simp only [List.cons_append, List.cons.injEq] at this
              exact ⟨this.1.symm, this.2⟩
            exact ⟨u', hrest, by simpa using hlen, fun y hy => hall y (List.mem_cons_of_mem _ hy)⟩
      · simp only [dropExact, hc, if_neg, Bool.false_eq_true, not_false_eq_true]
        constructor
        · intro h
          exact absurd h (by simp)
        · rintro ⟨u, hu, hlen, hall⟩
          cases u with
          | nil => simp at hlen
          | cons x u' =>
            exfalso
            have hx : x = c := by
              have := hu
              simp only [List.cons_append, List.cons.injEq] at this
              exact this.1.symm
            exact hc (hx ▸ hall x (List.mem_cons_self _ _))

theorem mem_mrun (r : RE) : ∀ (cs t : List Char),
    t ∈ mrun r cs ↔ ∃ u, cs = u ++ t ∧ DeclMatch r u := by
  induction r with
  | epsR =>
    intro cs t
    simp only [mrun, List.mem_singleton, DeclMatch]
    constructor
    · rintro rfl
      exact ⟨[], rfl, rfl⟩
    · rintro ⟨u, hu, rfl⟩
      simpa using hu.symm
  | cls p =>
    intro cs t
    cases cs with
    | nil =>
      simp only [mrun, List.not_mem_nil, false_iff, DeclMatch, not_exists]
      rintro u ⟨hu, c, rfl, hc⟩
      simp at hu
    | cons c rest =>
      by_cases hc : p c = true
      · simp only [mrun, hc, if_pos, List.mem_singleton, DeclMatch]
        constructor
        · rintro rfl
          exact ⟨[c], rfl, c, rfl, hc⟩
        · rintro ⟨u, hu, d, rfl, hd⟩
          simp only [List.singleton_append, List.cons.injEq] at hu
          exact hu.2.symm
      · simp only [mrun, hc, if_neg, Bool.false_eq_true, not_false_eq_true,
          List.not_mem_nil, false_iff, DeclMatch, not_exists]
        rintro u ⟨hu, d, rfl, hd⟩
        simp only [List.singleton_append, List.cons.injEq] at hu
        exact hc (hu.1 ▸ hd)
  | seqR a b iha ihb =>
    intro cs t
    simp only [mrun, List.mem_flatMap, DeclMatch]
    constructor
    · rintro ⟨s, hs, ht⟩
      obtain ⟨u, hu, hDa⟩ := (iha cs s).mp hs
      obtain ⟨v, hv, hDb⟩ := (ihb s t).mp ht
      refine ⟨u ++ v, ?_, u, v, rfl, hDa, hDb⟩
      rw [hu, hv, List.append_assoc]
    · rintro ⟨w, hw, u, v, rfl, hDa, hDb⟩
      exact ⟨v ++ t, (iha _ _).mpr ⟨u, by rw [hw, List.append_assoc], hDa⟩,
        (ihb _ _).mpr ⟨v, rfl, hDb⟩⟩
  | altR a b iha ihb =>
    intro cs t
    simp only [mrun, List.mem_append, iha, ihb, DeclMatch]
    constructor
    · rintro (⟨u, hu, h⟩ | ⟨u, hu, h⟩)
      exacts [⟨u, hu, Or.inl h⟩, ⟨u, hu, Or.inr h⟩]
    · rintro ⟨u, hu, h | h⟩
      exacts [Or.inl ⟨u, hu, h⟩, Or.inr ⟨u, hu, h⟩]
  | starCls p =>
    intro cs t
    simpa only [mrun, DeclMatch] using mem_greedySuffixes p cs t
  | optLazyCls p =>
    intro cs t
    cases cs with
    | nil =>
      simp only [mrun, List.mem_singleton, DeclMatch]
      constructor
      · rintro rfl
        exact ⟨[], rfl, Or.inl rfl⟩
      · rintro ⟨u, hu, _⟩
        rcases List.append_eq_nil.mp hu.symm with ⟨rfl, rfl⟩
        rfl
    | cons c rest =>
      by_cases hc : p c = true
      · simp only [mrun, hc, if_pos, List.mem_cons, List.mem_singleton, List.not_mem_nil,
          or_false, DeclMatch]
        constructor
        · rintro (rfl | rfl)
          · exact ⟨[], rfl, Or.inl rfl⟩
          · exact ⟨[c], rfl, Or.inr ⟨c, rfl, hc⟩⟩
        · rintro ⟨u, hu, rfl | ⟨d, rfl, hd⟩⟩
          · left
            simpa using hu.symm
          · right
            simp only [List.singleton_append, List.cons.injEq] at hu
            exact hu.2.symm
      · simp only [mrun, hc, if_neg, Bool.false_eq_true, not_false_eq_true,
          List.mem_singleton, DeclMatch]
        constructor
        · rintro rfl
          exact ⟨[], rfl, Or.inl rfl⟩
        · rintro ⟨u, hu, rfl | ⟨d, rfl, hd⟩⟩
          · simpa using hu.symm
          · exfalso
            simp only [List.singleton_append, List.cons.injEq] at hu
            exact hc (hu.1 ▸ hd)
  | repCls p n =>
    intro cs t
    simp only [mrun, DeclMatch]
    cases hd : dropExact p n cs with
    | some rest =>
      simp only [List.mem_singleton]
      constructor
      · rintro rfl
        exact (dropExact_eq_some p n cs t).mp hd
      · rintro ⟨u, hu, hlen, hall⟩
        have h2 := (dropExact_eq_some p n cs t).mpr ⟨u, hu, hlen, hall⟩
        rw [hd] at h2
        exact (Option.some.injEq _ _).mp h2 |>.symm
    | none =>
      simp only [List.not_mem_nil, false_iff, not_exists]
      rintro u ⟨hu, hlen, hall⟩
      have h2 := (dropExact_eq_some p n cs t).mpr ⟨u, hu, hlen, hall⟩
      rw [hd] at h2
      exact Option.noConfusion h2
  | atLeastCls p n =>
    intro cs t
    simp only [mrun, DeclMatch]
    cases hd : dropExact p n cs with
    | some rest =>
      rw [mem_greedySuffixes]
      obtain ⟨u₁, hu₁, hlen₁, hall₁⟩ := (dropExact_eq_some p n cs rest).mp hd
      constructor
      · rintro ⟨u₂, hu₂, hall₂⟩
        refine ⟨u₁ ++ u₂, by rw [hu₁, hu₂, List.append_assoc], by simp [hlen₁], ?_⟩
        intro c hc
        rcases List.mem_append.mp hc with h | h
        exacts [hall₁ c h, hall₂ c h]
      · rintro ⟨u, hu, hn, hall⟩
        have hsplit : cs = u.take n ++ (u.drop n ++ t) := by
          rw [hu, ← List.append_assoc, List.take_append_drop]
        have hdx : dropExact p n cs = some (u.drop n ++ t) :=
          (dropExact_eq_some p n cs _).mpr ⟨u.take n, hsplit,
            by simp [List.length_take, Nat.min_eq_left hn],
            fun c hc => hall c (List.mem_of_mem_take hc)⟩
        rw [hd] at hdx
        have hrest : rest = u.drop n ++ t := (Option.some.injEq _ _).mp hdx
        exact ⟨u.drop n, hrest, fun c hc => hall c ((List.drop_sublist n u).mem hc)⟩
    | none =>
      simp only [List.not_mem_nil, false_iff, not_exists]
      rintro u ⟨hu, hn, hall⟩
      have hsplit : cs = u.take n ++ (u.drop n ++ t) := by
        rw [hu, ← List.append_assoc, List.take_append_drop]
      have hdx : dropExact p n cs = some (u.drop n ++ t) :=
        (dropExact_eq_some p n cs _).mpr ⟨u.take n, hsplit,
          by simp [List.length_take, Nat.min_eq_left hn],
          fun c hc => hall c (List.mem_of_mem_take hc)⟩
      rw [hd] at hdx
      exact Option.noConfusion hdx

theorem DeclMatch_iff_engine (r : RE) (u : List Char) :
    DeclMatch r u ↔ [] ∈ mrun r u := by
  rw [mem_mrun]
  constructor
  · intro h
    exact ⟨u, by simp, h⟩
  · rintro ⟨w, hw, h⟩
    obtain rfl : u = w := by simpa using hw
    exact h

/-- A match of `r` starting at offset `i` of `t`. -/
def MatchAt (r : RE) (t : List Char) (i : Nat) : Prop :=
  ∃ u b, t.drop i = u ++ b ∧ DeclMatch r u

theorem matchAt_cons_succ (r : RE) (c : Char) (rest : List Char) (i : Nat) :
    MatchAt r (c :: rest) (i + 1) ↔ MatchAt r rest i := Iff.rfl

theorem mrun_ne_nil_iff (r : RE) (cs : List Char) :
    mrun r cs ≠ [] ↔ MatchAt r cs 0 := by
  constructor
  · intro hne
    obtain ⟨t, ht⟩ := List.exists_mem_of_ne_nil _ hne
    obtain ⟨u, hu, hD⟩ := (mem_mrun r cs t).mp ht
    exact ⟨u, t, by simpa using hu, hD⟩
  · rintro ⟨u, b, hsplit, hD⟩ hnil
    have : b ∈ mrun r cs := (mem_mrun r cs b).mpr ⟨u, by simpa using hsplit, hD⟩
    rw [hnil] at this
    exact absurd this (List.not_mem_nil b)

theorem search_iff (r : RE) : ∀ (t : List Char), search r t = true ↔ ∃ i, MatchAt r t i := by
  intro t
  induction t with
  | nil =>
    rw [search]
    constructor
    · intro h
      have hne : mrun r [] ≠ [] := by
        intro hnil
        rw [hnil] at h
        simp at h
      exact ⟨0, (mrun_ne_nil_iff r []).mp hne⟩
    · rintro ⟨i, u, b, hsplit, hD⟩
      rcases List.append_eq_nil.mp (by simpa using hsplit.symm) with ⟨rfl, rfl⟩
      have hmem : [] ∈ mrun r [] := (mem_mrun r [] []).mpr ⟨[], rfl, hD⟩
      cases hmr : mrun r [] with
      | nil =>
        rw [hmr] at hmem
        exact absurd hmem (List.not_mem_nil _)
      | cons a l => simp [hmr]
  | cons c rest ih =>
    rw [search]
    simp only [Bool.or_eq_true, ih]
    constructor
    · rintro (h0 | ⟨i, hi⟩)
      · refine ⟨0, (mrun_ne_nil_iff r (c :: rest)).mp ?_⟩
        intro hnil
        rw [hnil] at h0
        simp at h0
      · exact ⟨i + 1, (matchAt_cons_succ r c rest i).mpr hi⟩
    · rintro ⟨i, hi⟩
      cases i with
      | zero =>
        left
        have hne := (mrun_ne_nil_iff r (c :: rest)).mpr hi
        cases hmr : mrun r (c :: rest) with
        | nil => exact absurd hmr hne
        | cons a l => simp [hmr]
      | succ j =>
        right
        exact ⟨j, (matchAt_cons_succ r c rest j).mp hi⟩

/-- The characters any match of `r` can consume. -/
def reChars : RE → Char → Bool
  | .epsR, _ => false
  | .cls p, c => p c
  | .seqR a b, c => reChars a c || reChars b c
  | .altR a b, c => reChars a c || reChars b c
  | .starCls p, c => p c
  | .optLazyCls p, c => p c
  | .repCls p _, c => p c
  | .atLeastCls p _, c => p c

theorem declMatch_chars (r : RE) : ∀ (u : List Char), DeclMatch r u →
    ∀ c ∈ u, reChars r c = true := by
  induction r with
  | epsR =>
    intro u h c hc
    rw [DeclMatch] at h
    subst h
    simp at hc
  | cls p =>
    intro u h c hc
    obtain ⟨d, rfl, hd⟩ := h
    obtain rfl : c = d := by simpa using hc
    exact hd
  | seqR a b iha ihb =>
    intro u h c hc
    obtain ⟨x, y, rfl, hx, hy⟩ := h
    rcases List.mem_append.mp hc with h' | h'
    · simp only [reChars, Bool.or_eq_true]
      exact Or.inl (iha x hx c h')
    · simp only [reChars, Bool.or_eq_true]
      exact Or.inr (ihb y hy c h')
  | altR a b iha ihb =>
    intro u h c hc
    rcases h with h | h
    · simp only [reChars, Bool.or_eq_true]
      exact Or.inl (iha u h c hc)
    · simp only [reChars, Bool.or_eq_true]
      exact Or.inr (ihb u h c hc)
  | starCls p =>
    intro u h c hc
    exact h c hc
  | optLazyCls p =>
    intro u h c hc
    rcases h with rfl | ⟨d, rfl, hd⟩
    · simp at hc
    · obtain rfl : c = d := by simpa using hc
      exact hd
  | repCls p n =>
    intro u h c hc
    exact h.2 c hc
  | atLeastCls p n =>
    intro u h c hc
    exact h.2 c hc

theorem findLen_none_iff (r : RE) (cs : List Char) :
    findLen r cs = none ↔ ¬ MatchAt r cs 0 := by
  rw [findLen]
  constructor
  · intro h hmatch
    have hne := (mrun_ne_nil_iff r cs).mpr hmatch
    cases hmr : mrun r cs with
    | nil => exact absurd hmr hne
    | cons a l =>
      rw [hmr] at h
      simp at h
  · intro hno
    cases hmr : mrun r cs with
    | nil => simp [hmr]
    | cons a l =>
      exfalso
      apply hno
      apply (mrun_ne_nil_iff r cs).mp
      rw [hmr]
      simp

theorem findLen_some_spec (r : RE) (cs : List Char) (n : Nat)
    (h : findLen r cs = some n) :
    ∃ u b, cs = u ++ b ∧ DeclMatch r u ∧ u.length = n := by
  rw [findLen] at h
  cases hmr : mrun r cs with
  | nil =>
    rw [hmr] at h
    simp at h
  | cons a l =>
    rw [hmr] at h
    have hn : cs.length - a.length = n := by simpa using h
    have hmem : a ∈ mrun r cs := by
      rw [hmr]
      exact List.mem_cons_self _ _
    obtain ⟨u, hu, hD⟩ := (mem_mrun r cs a).mp hmem
    refine ⟨u, a, hu, hD, ?_⟩
    have hlen : cs.length = u.length + a.length := by
      rw [hu, List.length_append]
    omega

/-- The scan of `re.sub(r, repl, s)`, structurally recursive on a fuel that
bounds the number of scan steps (one character or one match consumed per
step, so the input length is always enough fuel). -/
def subAllF (r : RE) (repl : List Char) : Nat → List Char → List Char
  | _, [] => []
  | 0, c :: rest => c :: rest
  | fuel + 1, c :: rest =>
    match findLen r (c :: rest) with
    | none => c :: subAllF r repl fuel rest
    | some 0 => c :: subAllF r repl fuel rest
    | some (n + 1) => repl ++ subAllF r repl fuel ((c :: rest).drop (n + 1))

/-- Python's `re.sub(r, repl, s)`: scan left to right; at each position where
the pattern matches, emit `repl` and continue after the engine's chosen
match.  (A zero-length match — impossible for both source patterns, which
cannot match the empty string — is skipped.) -/
def subAll (r : RE) (repl : List Char) (s : List Char) : List Char :=
  subAllF r repl s.length s

theorem subAllF_fuel_irrel (r : RE) (repl : List Char) :
    ∀ (f1 : Nat) (cs : List Char) (f2 : Nat), cs.length ≤ f1 → cs.length ≤ f2 →
    subAllF r repl f1 cs = subAllF r repl f2 cs := by
  intro f1
  induction f1 with
  | zero =>
    intro cs f2 h1 _
    have hcs : cs = [] := List.length_eq_zero.mp (Nat.le_zero.mp h1)
    subst hcs
    cases f2 <;> rfl
  | succ f ih =>
    intro cs f2 h1 h2
    cases cs with
    | nil => cases f2 <;> rfl
    | cons c rest =>
      cases f2 with
      | zero => simp at h2
      | succ g =>
        have hr : rest.length ≤ f := by
          simp only [List.length_cons] at h1
          omega
        have hg : rest.length ≤ g := by
          simp only [List.length_cons] at h2
          omega
        show subAllF r repl (f + 1) (c :: rest) = subAllF r repl (g + 1) (c :: rest)
        simp only [subAllF]
        cases hf : findLen r (c :: rest) with
        | none =>
          dsimp only
          rw [ih rest g hr hg]
        | some n =>
          cases n with
          | zero =>
            dsimp only
            rw [ih rest g hr hg]
          | succ m =>
            dsimp only
            rw [ih ((c :: rest).drop (m + 1)) g (by
                simp only [List.length_drop, List.length_cons]
                omega) (by
                simp only [List.length_drop, List.length_cons]
                omega)]

theorem subAll_nil (r : RE) (repl : List Char) : subAll r repl [] = [] := rfl

theorem subAll_cons_none (r : RE) (repl : List Char) (c : Char) (rest : List Char)
    (h : findLen r (c :: rest) = none) :
    subAll r repl (c :: rest) = c :: subAll r repl rest := by
  show subAllF r repl (rest.length + 1) (c :: rest) = c :: subAllF r repl rest.length rest
  simp only [subAllF, h]

theorem subAll_cons_zero (r : RE) (repl : List Char) (c : Char) (rest : List Char)
    (h : findLen r (c :: rest) = some 0) :
    subAll r repl (c :: rest) = c :: subAll r repl rest := by
  show subAllF r repl (rest.length + 1) (c :: rest) = c :: subAllF r repl rest.length rest
  simp only [subAllF, h]

theorem subAll_cons_some (r : RE) (repl : List Char) (c : Char) (rest : List Char) (n : Nat)
    (h : findLen r (c :: rest) = some (n + 1)) :
    subAll r repl (c :: rest) = repl ++ subAll r repl ((c :: rest).drop (n + 1)) := by
  show subAllF r repl (rest.length + 1) (c :: rest)
      = repl ++ subAllF r repl ((c :: rest).drop (n + 1)).length ((c :: rest).drop (n + 1))
  simp only [subAllF, h]
  rw [subAllF_fuel_irrel r repl rest.length ((c :: rest).drop (n + 1))
    ((c :: rest).drop (n + 1)).length (by
      simp only [List.length_drop, List.length_cons]
      omega) le_rfl]

theorem not_matchAt_nil (r : RE) (hnn : ¬ DeclMatch r []) (i : Nat) :
    ¬ MatchAt r [] i := by
  rintro ⟨u, b, hsplit, hD⟩
  rcases List.append_eq_nil.mp (by simpa using hsplit.symm) with ⟨rfl, rfl⟩
  exact hnn hD

theorem bracketFree_prefix_of_subAll (r : RE) (repl tokMid : List Char)
    (hrepl : repl = '[' :: tokMid) :
    ∀ (N : Nat) (cs u : List Char), cs.length ≤ N →
    u <+: subAll r repl cs → '[' ∉ u → u <+: cs := by
  intro N
  induction N with
  | zero =>
    intro cs u hlen hpre _
    have hcs : cs = [] := List.length_eq_zero.mp (Nat.le_zero.mp hlen)
    subst hcs
    rw [subAll_nil] at hpre
    exact hpre
  | succ N ih =>
    intro cs u hlen hpre hbr
    cases cs with
    | nil =>
      rw [subAll_nil] at hpre
      exact hpre
    | cons c rest =>
      have hlr : rest.length ≤ N := by
        simp only [List.length_cons] at hlen
        omega
      cases hf : findLen r (c :: rest) with
      | none =>
        rw [subAll_cons_none r repl c rest hf] at hpre
        cases u with
        | nil => exact List.nil_prefix
        | cons x u' =>
          obtain ⟨rfl, hpre'⟩ := List.cons_prefix_cons.mp hpre
          have h1 : u' <+: rest :=
            ih rest u' hlr hpre' (fun hm => hbr (List.mem_cons_of_mem _ hm))
          exact List.cons_prefix_cons.mpr ⟨rfl, h1⟩
      | some n =>
        cases n with
        | zero =>
          rw [subAll_cons_zero r repl c rest hf] at hpre
          cases u with
          | nil => exact List.nil_prefix
          | cons x u' =>
            obtain ⟨rfl, hpre'⟩ := List.cons_prefix_cons.mp hpre
            have h1 : u' <+: rest :=
              ih rest u' hlr hpre' (fun hm => hbr (List.mem_cons_of_mem _ hm))
            exact List.cons_prefix_cons.mpr ⟨rfl, h1⟩
        | succ m =>
          rw [subAll_cons_some r repl c rest m hf, hrepl] at hpre
          cases u with
          | nil => exact List.nil_prefix
          | cons x u' =>
            exfalso
            rw [List.cons_append, List.cons_prefix_cons] at hpre
            exact hbr (hpre.1 ▸ List.mem_cons_self x u')

/-- At every position of `subAll r repl cs` there is no match of `q`, provided
`q` cannot match the empty string or consume a square bracket, `repl` is a
bracket-delimited token containing no `q`-match, and — this being the
cross-pattern hypothesis — either `q` is `r` itself, or `cs` contains no
`q`-match to begin with.  Stated for `q = r`. -/
theorem subAll_no_match_self (r : RE) (repl tokMid tokInit : List Char)
    (hnn : ¬ DeclMatch r [])
    (hbr1 : reChars r '[' = false) (hbr2 : reChars r ']' = false)
    (hrepl : repl = '[' :: tokMid) (hlast : repl = tokInit ++ [']'])
    (hnotok : ∀ i, ¬ MatchAt r repl i) :
    ∀ (N : Nat) (cs : List Char), cs.length ≤ N →
    ∀ i, ¬ MatchAt r (subAll r repl cs) i := by
  intro N
  induction N with
  | zero =>
    intro cs hlen i
    have hcs : cs = [] := List.length_eq_zero.mp (Nat.le_zero.mp hlen)
    subst hcs
    rw [subAll_nil]
    exact not_matchAt_nil r hnn i
  | succ N ih =>
    intro cs hlen i
    cases cs with
    | nil =>
      rw [subAll_nil]
      exact not_matchAt_nil r hnn i
    | cons c rest =>
      have hlr : rest.length ≤ N := by
        simp only [List.length_cons] at hlen
        omega
      cases hf : findLen r (c :: rest) with
      | none =>
        rw [subAll_cons_none r repl c rest hf]
        cases i with
        | zero =>
          rintro ⟨u, b, hsplit, hD⟩
          cases u with
          | nil => exact hnn hD
          | cons x u' =>
            simp only [List.drop_zero, List.cons_append, List.cons.injEq] at hsplit
            obtain ⟨rfl, hsplit'⟩ := hsplit
            have hchars := declMatch_chars r (c :: u') hD
            have hbrfree : '[' ∉ u' := by
              intro hm
              have := hchars '[' (List.mem_cons_of_mem _ hm)
              rw [hbr1] at this
              exact Bool.noConfusion this
            have hpre' : u' <+: subAll r repl rest := ⟨b, hsplit'.symm⟩
            have h1 : u' <+: rest :=
              bracketFree_prefix_of_subAll r repl tokMid hrepl rest.length rest u'
                le_rfl hpre' hbrfree
            obtain ⟨b', hb'⟩ := h1
            have hmatch : MatchAt r (c :: rest) 0 :=
              ⟨c :: u', b', by simp [← hb'], hD⟩
            exact (findLen_none_iff r (c :: rest)).mp hf hmatch
        | succ j =>
          rw [matchAt_cons_succ]
          exact ih rest hlr j
      | some n =>
        cases n with
        | zero =>
          exfalso
          obtain ⟨u, b, _, hD, hulen⟩ := findLen_some_spec r (c :: rest) 0 hf
          rw [List.length_eq_zero.mp hulen] at hD
          exact hnn hD
        | succ m =>
          rw [subAll_cons_some r repl c rest m hf]
          rintro ⟨u, b, hsplit, hD⟩
          by_cases hi : i < repl.length
          · rw [List.drop_append_of_le_length (Nat.le_of_lt hi)] at hsplit
            rcases List.append_eq_append_iff.mp hsplit with ⟨w, hw, _⟩ | ⟨w, hw, _⟩
            · -- u = repl.drop i ++ w : u contains repl's final ']'
              have hmem : ']' ∈ u := by
                rw [hw]
                apply List.mem_append_left
                rw [hlast, List.drop_append_of_le_length (by
                  rw [hlast, List.length_append, List.length_singleton] at hi
                  omega)]
                exact List.mem_append_right _ (List.mem_singleton_self _)
              have := declMatch_chars r u hD ']' hmem
              rw [hbr2] at this
              exact Bool.noConfusion this
            · exact hnotok i ⟨u, w, hw, hD⟩
          · rw [Nat.not_lt] at hi
            have hdecomp : i = repl.length + (i - repl.length) := by omega
            rw [hdecomp, List.drop_append] at hsplit
            exact ih ((c :: rest).drop (m + 1)) (by
                simp only [List.length_drop, List.length_cons]
                omega) (i - repl.length) ⟨u, b, hsplit, hD⟩

theorem matchAt_drop (q : RE) (t : List Char) (k i : Nat) :
    MatchAt q (t.drop k) i ↔ MatchAt q t (i + k) := by
  unfold MatchAt
  rw [List.drop_drop, Nat.add_comm k i]

/-- Cross-pattern version: substituting pattern `r` does not create matches of
a different pattern `q` when `cs` had none. -/
theorem subAll_no_match_cross (q r : RE) (repl tokMid tokInit : List Char)
    (hnnq : ¬ DeclMatch q [])
    (hqbr1 : reChars q '[' = false) (hqbr2 : reChars q ']' = false)
    (hrepl : repl = '[' :: tokMid) (hlast : repl = tokInit ++ [']'])
    (hnotok : ∀ i, ¬ MatchAt q repl i) :
    ∀ (N : Nat) (cs : List Char), cs.length ≤ N →
    (∀ j, ¬ MatchAt q cs j) →
    ∀ i, ¬ MatchAt q (subAll r repl cs) i := by
  intro N
  induction N with
  | zero =>
    intro cs hlen _ i
    have hcs : cs = [] := List.length_eq_zero.mp (Nat.le_zero.mp hlen)
    subst hcs
    rw [subAll_nil]
    exact not_matchAt_nil q hnnq i
  | succ N ih =>
    intro cs hlen hcs i
    cases cs with
    | nil =>
      rw [subAll_nil]
      exact not_matchAt_nil q hnnq i
    | cons c rest =>
      have hlr : rest.length ≤ N := by
        simp only [List.length_cons] at hlen
        omega
      have hrest : ∀ j, ¬ MatchAt q rest j := fun j hj =>
        hcs (j + 1) ((matchAt_cons_succ q c rest j).mpr hj)
      have hskip : ∀ i, ¬ MatchAt q (c :: subAll r repl rest) i := by
        intro i
        cases i with
        | zero =>
          rintro ⟨u, b, hsplit, hD⟩
          cases u with
          | nil => exact hnnq hD
          | cons x u' =>
            simp only [List.drop_zero, List.cons_append, List.cons.injEq] at hsplit
            obtain ⟨rfl, hsplit'⟩ := hsplit
            have hchars := declMatch_chars q (c :: u') hD
            have hbrfree : '[' ∉ u' := by
              intro hm
              have := hchars '[' (List.mem_cons_of_mem _ hm)
              rw [hqbr1] at this
              exact Bool.noConfusion this
            have hpre' : u' <+: subAll r repl rest := ⟨b, hsplit'.symm⟩
            have h1 : u' <+: rest :=
              bracketFree_prefix_of_subAll r repl tokMid hrepl rest.length rest u'
                le_rfl hpre' hbrfree
            obtain ⟨b', hb'⟩ := h1
            exact hcs 0 ⟨c :: u', b', by simp [← hb'], hD⟩
        | succ j =>
          rw [matchAt_cons_succ]
          exact ih rest hlr hrest j
      cases hf : findLen r (c :: rest) with
      | none =>
        rw [subAll_cons_none r repl c rest hf]
        exact hskip i
      | some n =>
        cases n with
        | zero =>
          rw [subAll_cons_zero r repl c rest hf]
          exact hskip i
        | succ m =>
          rw [subAll_cons_some r repl c rest m hf]
          rintro ⟨u, b, hsplit, hD⟩
          by_cases hi : i < repl.length
          · rw [List.drop_append_of_le_length (Nat.le_of_lt hi)] at hsplit
            rcases List.append_eq_append_iff.mp hsplit with ⟨w, hw, _⟩ | ⟨w, hw, _⟩
            · have hmem : ']' ∈ u := by
                rw [hw]
                apply List.mem_append_left
                rw [hlast, List.drop_append_of_le_length (by
                  rw [hlast, List.length_append, List.length_singleton] at hi
                  omega)]
                exact List.mem_append_right _ (List.mem_singleton_self _)
              have := declMatch_chars q u hD ']' hmem
              rw [hqbr2] at this
              exact Bool.noConfusion this
            · exact hnotok i ⟨u, w, hw, hD⟩
          · rw [Nat.not_lt] at hi
            have hdecomp : i = repl.length + (i - repl.length) := by omega
            rw [hdecomp, List.drop_append] at hsplit
            refine ih ((c :: rest).drop (m + 1)) (by
                simp only [List.length_drop, List.length_cons]
                omega) ?_ (i - repl.length) ⟨u, b, hsplit, hD⟩
            intro j
            rw [matchAt_drop]
            exact hcs (j + (m + 1))

/-- Python's `needle in haystack` substring test. -/
def containsSub (needle : List Char) : List Char → Bool
  | [] => needle.isEmpty
  | hay@(_ :: rest) => needle.isPrefixOf hay || containsSub needle rest

theorem containsSub_iff (w : List Char) : ∀ (t : List Char),
    containsSub w t = true ↔ ∃ i, w <+: t.drop i := by
  intro t
  induction t with
  | nil =>
    rw [containsSub]
    constructor
    · intro h
      refine ⟨0, ?_⟩
      rw [List.isEmpty_iff.mp h]
      exact List.nil_prefix
    · rintro ⟨i, hi⟩
      rw [List.drop_nil] at hi
      rw [List.isEmpty_iff, ← List.prefix_nil]
      exact hi
  | cons c rest ih =>
    rw [containsSub]
    simp only [Bool.or_eq_true, List.isPrefixOf_iff_prefix, ih]
    constructor
    · rintro (h | ⟨i, hi⟩)
      · exact ⟨0, h⟩
      · exact ⟨i + 1, hi⟩
    · rintro ⟨i, hi⟩
      cases i with
      | zero => exact Or.inl hi
      | succ j => exact Or.inr ⟨j, hi⟩

theorem prefix_append_cases {w x y : List Char} (h : w <+: x ++ y) :
    w <+: x ∨ x <+: w := by
  obtain ⟨t, ht⟩ := h
  rcases List.append_eq_append_iff.mp ht with ⟨a', ha, _⟩ | ⟨c', hc, _⟩
  · exact Or.inl ⟨a', ha.symm⟩
  · exact Or.inr ⟨c', hc.symm⟩

theorem prefix_pyLower (w t : List Char) :
    w <+: pyLower t ↔ ∃ u, u <+: t ∧ w = pyLower u := by
  constructor
  · intro h
    refine ⟨t.take w.length, List.take_prefix _ _, ?_⟩
    rw [pyLower, List.map_take]
    exact List.prefix_iff_eq_take.mp h
  · rintro ⟨u, hu, rfl⟩
    exact hu.map Char.toLower

theorem bracket_mem_pyLower {u : List Char} (h : '[' ∈ u) : '[' ∈ pyLower u := by
  rw [pyLower]
  have hl : Char.toLower '[' = '[' := by decide
  exact hl ▸ List.mem_map_of_mem Char.toLower h

/-- Substituting a bracket-delimited token introduces no new occurrence of a
bracket-free word `w` (looked up case-insensitively): if neither the lowered
input nor the lowered token contains `w`, neither does the lowered output. -/
theorem subAll_no_substring (r : RE) (repl tokMid tokInit w : List Char)
    (hw : w ≠ []) (hwbr1 : '[' ∉ w) (hwbr2 : ']' ∉ w)
    (hrepl : repl = '[' :: tokMid) (hlast : repl = tokInit ++ [']'])
    (hwtok : ∀ i, ¬ w <+: (pyLower repl).drop i) :
    ∀ (N : Nat) (cs : List Char), cs.length ≤ N →
    (∀ j, ¬ w <+: (pyLower cs).drop j) →
    ∀ i, ¬ w <+: (pyLower (subAll r repl cs)).drop i := by
  intro N
  induction N with
  | zero =>
    intro cs hlen _ i hpre
    have hcs : cs = [] := List.length_eq_zero.mp (Nat.le_zero.mp hlen)
    subst hcs
    rw [subAll_nil] at hpre
    simp only [pyLower, List.map_nil, List.drop_nil] at hpre
    exact hw (List.prefix_nil.mp hpre)
  | succ N ih =>
    intro cs hlen hcs i hpre
    cases cs with
    | nil =>
      rw [subAll_nil] at hpre
      simp only [pyLower, List.map_nil, List.drop_nil] at hpre
      exact hw (List.prefix_nil.mp hpre)
    | cons c rest =>
      have hlr : rest.length ≤ N := by
        simp only [List.length_cons] at hlen
        omega
      have hrest : ∀ j, ¬ w <+: (pyLower rest).drop j := by
        intro j hj
        exact hcs (j + 1) (by
          simpa only [pyLower, List.map_cons, List.drop_succ_cons] using hj)
      have hskip : ∀ i, ¬ w <+: (pyLower (c :: subAll r repl rest)).drop i := by
        intro i hpre
        cases i with
        | zero =>
          rw [List.drop_zero] at hpre
          cases w with
          | nil => exact hw rfl
          | cons wc w' =>
            rw [show pyLower (c :: subAll r repl rest)
                = Char.toLower c :: pyLower (subAll r repl rest) from rfl,
              List.cons_prefix_cons] at hpre
            obtain ⟨rfl, hpre'⟩ := hpre
            obtain ⟨u', hu', rfl⟩ := (prefix_pyLower _ _).mp hpre'
            have hbrfree : '[' ∉ u' := by
              intro hm
              exact hwbr1 (List.mem_cons_of_mem _ (bracket_mem_pyLower hm))
            have h1 : u' <+: rest :=
              bracketFree_prefix_of_subAll r repl tokMid hrepl rest.length rest u'
                le_rfl hu' hbrfree
            apply hcs 0
            rw [List.drop_zero,
              show pyLower (c :: rest) = Char.toLower c :: pyLower rest from rfl,
              List.cons_prefix_cons]
            exact ⟨rfl, h1.map Char.toLower⟩
        | succ j =>
          rw [show pyLower (c :: subAll r repl rest)
              = Char.toLower c :: pyLower (subAll r repl rest) from rfl,
            List.drop_succ_cons] at hpre
          exact ih rest hlr hrest j hpre
      cases hf : findLen r (c :: rest) with
      | none =>
        rw [subAll_cons_none r repl c rest hf] at hpre
        exact hskip i hpre
      | some n =>
        cases n with
        | zero =>
          rw [subAll_cons_zero r repl c rest hf] at hpre
          exact hskip i hpre
        | succ m =>
          rw [subAll_cons_some r repl c rest m hf] at hpre
          rw [show pyLower (repl ++ subAll r repl ((c :: rest).drop (m + 1)))
              = pyLower repl ++ pyLower (subAll r repl ((c :: rest).drop (m + 1)))
              from by simp [pyLower]] at hpre
          by_cases hi : i < repl.length
          · have hile : i ≤ (pyLower repl).length := by
              rw [pyLower, List.length_map]
              omega
            rw [List.drop_append_of_le_length hile] at hpre
            rcases prefix_append_cases hpre with hcase | hcase
            · exact hwtok i hcase
            · apply hwbr2
              apply hcase.sublist.mem
              have hlower : pyLower repl = pyLower tokInit ++ [']'] := by
                rw [hlast]
                simp [pyLower]
              rw [hlower, List.drop_append_of_le_length (by
                rw [hlast, List.length_append, List.length_singleton] at hi
                rw [pyLower, List.length_map]
                omega)]
              exact List.mem_append_right _ (List.mem_singleton_self _)
          · rw [Nat.not_lt] at hi
            have hlenrepl : (pyLower repl).length = repl.length := by
              rw [pyLower, List.length_map]
            have hdecomp : i = (pyLower repl).length + (i - repl.length) := by omega
            rw [hdecomp, List.drop_append] at hpre
            refine ih ((c :: rest).drop (m + 1)) (by
                simp only [List.length_drop, List.length_cons]
                omega) ?_ (i - repl.length) hpre
            intro j hj
            rw [show pyLower ((c :: rest).drop (m + 1))
                = (pyLower (c :: rest)).drop (m + 1) from by
                  rw [pyLower, pyLower, List.map_drop],
              List.drop_drop] at hj
            exact hcs (m + 1 + j) hj

/-- The scan of `str.replace(old, new)`, structurally recursive on a fuel that
bounds the number of scan steps (at least one character consumed per step). -/
def replaceAllF (old new : List Char) : Nat → List Char → List Char
  | _, [] => []
  | 0, c :: rest => c :: rest
  | fuel + 1, c :: rest =>
    if old ≠ [] ∧ old.isPrefixOf (c :: rest) then
      new ++ replaceAllF old new fuel ((c :: rest).drop old.length)
    else c :: replaceAllF old new fuel rest

/-- Python's `str.replace(old, new)` (all occurrences, leftmost first;
guarded against the empty pattern, which the source never uses). -/
def replaceAll (old new : List Char) (s : List Char) : List Char :=
  replaceAllF old new s.length s

theorem replaceAllF_fuel_irrel (old new : List Char) :
    ∀ (f1 : Nat) (cs : List Char) (f2 : Nat), cs.length ≤ f1 → cs.length ≤ f2 →
    replaceAllF old new f1 cs = replaceAllF old new f2 cs := by
  intro f1
  induction f1 with
  | zero =>
    intro cs f2 h1 _
    have hcs : cs = [] := List.length_eq_zero.mp (Nat.le_zero.mp h1)
    subst hcs
    cases f2 <;> rfl
  | succ f ih =>
    intro cs f2 h1 h2
    cases cs with
    | nil => cases f2 <;> rfl
    | cons c rest =>
      cases f2 with
      | zero => simp at h2
      | succ g =>
        have hr : rest.length ≤ f := by
          simp only [List.length_cons] at h1
          omega
        have hg : rest.length ≤ g := by
          simp only [List.length_cons] at h2
          omega
        show replaceAllF old new (f + 1) (c :: rest)
            = replaceAllF old new (g + 1) (c :: rest)
        simp only [replaceAllF]
        by_cases hp : old ≠ [] ∧ old.isPrefixOf (c :: rest)
        · have holen : old.length ≠ 0 := fun hz => hp.1 (List.length_eq_zero.mp hz)
          rw [if_pos hp, if_pos hp,
            ih ((c :: rest).drop old.length) g (by
              simp only [List.length_drop, List.length_cons]
              omega) (by
              simp only [List.length_drop, List.length_cons]
              omega)]
        · rw [if_neg hp, if_neg hp, ih rest g hr hg]

theorem replaceAll_nil (old new : List Char) : replaceAll old new [] = [] := rfl

theorem replaceAll_cons_pos (old new : List Char) (c : Char) (rest : List Char)
    (h : old ≠ [] ∧ old.isPrefixOf (c :: rest)) :
    replaceAll old new (c :: rest)
      = new ++ replaceAll old new ((c :: rest).drop old.length) := by
  have hlen : old.length ≠ 0 := fun hz => h.1 (List.length_eq_zero.mp hz)
  show replaceAllF old new (rest.length + 1) (c :: rest)
      = new ++ replaceAllF old new ((c :: rest).drop old.length).length
          ((c :: rest).drop old.length)
  simp only [replaceAllF, if_pos h]
  rw [replaceAllF_fuel_irrel old new rest.length ((c :: rest).drop old.length)
    ((c :: rest).drop old.length).length (by
      simp only [List.length_drop, List.length_cons]
      omega) le_rfl]

theorem replaceAll_cons_neg (old new : List Char) (c : Char) (rest : List Char)
    (h : ¬(old ≠ [] ∧ old.isPrefixOf (c :: rest))) :
    replaceAll old new (c :: rest) = c :: replaceAll old new rest := by
  show replaceAllF old new (rest.length + 1) (c :: rest)
      = c :: replaceAllF old new rest.length rest
  simp only [replaceAllF, if_neg h]

theorem bracketFree_prefix_of_replaceAll (old new newMid : List Char)
    (hnew : new = '[' :: newMid) :
    ∀ (N : Nat) (s u : List Char), s.length ≤ N →
    u <+: replaceAll old new s → '[' ∉ u → u <+: s := by
  intro N
  induction N with
  | zero =>
    intro s u hlen hpre _
    have hs : s = [] := List.length_eq_zero.mp (Nat.le_zero.mp hlen)
    subst hs
    rw [replaceAll_nil] at hpre
    exact hpre
  | succ N ih =>
    intro s u hlen hpre hbr
    cases s with
    | nil =>
      rw [replaceAll_nil] at hpre
      exact hpre
    | cons c rest =>
      have hlr : rest.length ≤ N := by
        simp only [List.length_cons] at hlen
        omega
      by_cases hcond : old ≠ [] ∧ old.isPrefixOf (c :: rest)
      · rw [replaceAll_cons_pos old new c rest hcond, hnew] at hpre
        cases u with
        | nil => exact List.nil_prefix
        | cons x u' =>
          exfalso
          rw [List.cons_append, List.cons_prefix_cons] at hpre
          exact hbr (hpre.1 ▸ List.mem_cons_self x u')
      · rw [replaceAll_cons_neg old new c rest hcond] at hpre
        cases u with
        | nil => exact List.nil_prefix
        | cons x u' =>
          obtain ⟨rfl, hpre'⟩ := List.cons_prefix_cons.mp hpre
          have h1 : u' <+: rest :=
            ih rest u' hlr hpre' (fun hm => hbr (List.mem_cons_of_mem _ hm))
          exact List.cons_prefix_cons.mpr ⟨rfl, h1⟩

/-- `str.replace` leaves a string without occurrences unchanged. -/
theorem replaceAll_of_no_occurrence (old new : List Char) :
    ∀ (N : Nat) (s : List Char), s.length ≤ N →
    (∀ i, ¬ old <+: s.drop i) → replaceAll old new s = s := by
  intro N
  induction N with
  | zero =>
    intro s hlen _
    have hs : s = [] := List.length_eq_zero.mp (Nat.le_zero.mp hlen)
    subst hs
    exact replaceAll_nil old new
  | succ N ih =>
    intro s hlen hno
    cases s with
    | nil => exact replaceAll_nil old new
    | cons c rest =>
      have hlr : rest.length ≤ N := by
        simp only [List.length_cons] at hlen
        omega
      have hcond : ¬(old ≠ [] ∧ old.isPrefixOf (c :: rest)) := by
        rintro ⟨_, hpre⟩
        exact hno 0 (by simpa using List.isPrefixOf_iff_prefix.mp hpre)
      rw [replaceAll_cons_neg old new c rest hcond]
      rw [ih rest hlr (fun i hi => hno (i + 1) (by simpa using hi))]

/-- After `str.replace(old, new)` with a bracket-delimited `new` that does not
contain `old`, no occurrence of (bracket-free, nonempty) `old` remains. -/
theorem replaceAll_no_occurrence (old new newMid newInit : List Char)
    (hold : old ≠ []) (hbr1 : '[' ∉ old) (hbr2 : ']' ∉ old)
    (hnew : new = '[' :: newMid) (hlastn : new = newInit ++ [']'])
    (holdnew : ∀ i, ¬ old <+: new.drop i) :
    ∀ (N : Nat) (s : List Char), s.length ≤ N →
    ∀ i, ¬ old <+: (replaceAll old new s).drop i := by
  intro N
  induction N with
  | zero =>
    intro s hlen i hpre
    have hs : s = [] := List.length_eq_zero.mp (Nat.le_zero.mp hlen)
    subst hs
    rw [replaceAll_nil] at hpre
    rw [List.drop_nil] at hpre
    exact hold (List.prefix_nil.mp hpre)
  | succ N ih =>
    intro s hlen i hpre
    cases s with
    | nil =>
      rw [replaceAll_nil] at hpre
      rw [List.drop_nil] at hpre
      exact hold (List.prefix_nil.mp hpre)
    | cons c rest =>
      have hlr : rest.length ≤ N := by
        simp only [List.length_cons] at hlen
        omega
      by_cases hcond : old ≠ [] ∧ old.isPrefixOf (c :: rest)
      · rw [replaceAll_cons_pos old new c rest hcond] at hpre
        by_cases hi : i < new.length
        · rw [List.drop_append_of_le_length (Nat.le_of_lt hi)] at hpre
          rcases prefix_append_cases hpre with hcase | hcase
          · exact holdnew i hcase
          · apply hbr2
            apply hcase.sublist.mem
            rw [hlastn, List.drop_append_of_le_length (by
              rw [hlastn, List.length_append, List.length_singleton] at hi
              omega)]
            exact List.mem_append_right _ (List.mem_singleton_self _)
        · rw [Nat.not_lt] at hi
          have hdecomp : i = new.length + (i - new.length) := by omega
          rw [hdecomp, List.drop_append] at hpre
          exact ih ((c :: rest).drop old.length) (by
              simp only [List.length_drop, List.length_cons]
              have : old.length ≠ 0 := fun hz => hcond.1 (List.length_eq_zero.mp hz)
              omega) (i - new.length) hpre
      · rw [replaceAll_cons_neg old new c rest hcond] at hpre
        cases i with
        | zero =>
          rw [List.drop_zero] at hpre
          obtain ⟨oc, old', rfl⟩ : ∃ oc old', old = oc :: old' := by
            cases old with
            | nil => exact absurd rfl hold
            | cons a b => exact ⟨a, b, rfl⟩
          obtain ⟨rfl, hpre'⟩ := List.cons_prefix_cons.mp hpre
          have hbrfree : '[' ∉ old' := fun hm => hbr1 (List.mem_cons_of_mem _ hm)
          have h1 : old' <+: rest :=
            bracketFree_prefix_of_replaceAll (oc :: old') new newMid hnew rest.length rest old'
              le_rfl hpre' hbrfree
          exact hcond ⟨hold, List.isPrefixOf_iff_prefix.mpr
            (List.cons_prefix_cons.mpr ⟨rfl, h1⟩)⟩
        | succ j =>
          rw [List.drop_succ_cons] at hpre
          exact ih rest hlr j hpre

theorem isPrefix_drop {x y : List Char} (h : x <+: y) (n : Nat) (hn : n ≤ x.length) :
    x.drop n <+: y.drop n := by
  obtain ⟨t, rfl⟩ := h
  rw [List.drop_append_of_le_length hn]
  exact ⟨t, rfl⟩

/-- No placement of `w` can overlap an occurrence of `pl` (all relative
offsets disagree somewhere). -/
def noOverlap (w pl : List Char) : Bool :=
  ((List.range w.length).all fun d =>
      !((w.drop d).isPrefixOf pl || pl.isPrefixOf (w.drop d)))
    && ((List.range pl.length).all fun d =>
      !((pl.drop d).isPrefixOf w || w.isPrefixOf (pl.drop d)))

theorem noOverlap_fst {w pl : List Char} (h : noOverlap w pl = true) {d : Nat}
    (hd : d < w.length) : ¬(w.drop d <+: pl) ∧ ¬(pl <+: w.drop d) := by
  rw [noOverlap, Bool.and_eq_true] at h
  have h2 := (List.all_eq_true.mp h.1) d (List.mem_range.mpr hd)
  rw [Bool.not_eq_true', Bool.or_eq_false_iff] at h2
  refine ⟨fun hp => ?_, fun hp => ?_⟩
  · have hb := List.isPrefixOf_iff_prefix.mpr hp
    rw [h2.1] at hb
    exact Bool.noConfusion hb
  · have hb := List.isPrefixOf_iff_prefix.mpr hp
    rw [h2.2] at hb
    exact Bool.noConfusion hb

theorem noOverlap_snd {w pl : List Char} (h : noOverlap w pl = true) {d : Nat}
    (hd : d < pl.length) : ¬(pl.drop d <+: w) ∧ ¬(w <+: pl.drop d) := by
  rw [noOverlap, Bool.and_eq_true] at h
  have h2 := (List.all_eq_true.mp h.2) d (List.mem_range.mpr hd)
  rw [Bool.not_eq_true', Bool.or_eq_false_iff] at h2
  refine ⟨fun hp => ?_, fun hp => ?_⟩
  · have hb := List.isPrefixOf_iff_prefix.mpr hp
    rw [h2.1] at hb
    exact Bool.noConfusion hb
  · have hb := List.isPrefixOf_iff_prefix.mpr hp
    rw [h2.2] at hb
    exact Bool.noConfusion hb

theorem containsSub_append_left (w a t : List Char) (h : containsSub w t = true) :
    containsSub w (a ++ t) = true := by
  rw [containsSub_iff] at h ⊢
  obtain ⟨i, hi⟩ := h
  exact ⟨a.length + i, by rw [List.drop_append]; exact hi⟩

theorem replaceAll_survive_aux (old new : List Char) :
    ∀ (N : Nat) (s w : List Char), s.length ≤ N →
    w <+: pyLower s →
    w <+: pyLower (replaceAll old new s) ∨ ∃ p, p < w.length ∧ old <+: s.drop p := by
  intro N
  induction N with
  | zero =>
    intro s w hlen hpre
    have hs : s = [] := List.length_eq_zero.mp (Nat.le_zero.mp hlen)
    subst hs
    left
    rw [replaceAll_nil]
    exact hpre
  | succ N ih =>
    intro s w hlen hpre
    cases s with
    | nil =>
      left
      rw [replaceAll_nil]
      exact hpre
    | cons c rest =>
      have hlr : rest.length ≤ N := by
        simp only [List.length_cons] at hlen
        omega
      by_cases hcond : old ≠ [] ∧ old.isPrefixOf (c :: rest)
      · cases w with
        | nil => exact Or.inl List.nil_prefix
        | cons wc w' =>
          right
          exact ⟨0, by simp, by simpa using List.isPrefixOf_iff_prefix.mp hcond.2⟩
      · cases w with
        | nil => exact Or.inl List.nil_prefix
        | cons wc w' =>
          have hpre2 : wc :: w' <+: Char.toLower c :: pyLower rest := hpre
          obtain ⟨rfl, hpre'⟩ := List.cons_prefix_cons.mp hpre2
          rcases ih rest w' hlr hpre' with hleft | ⟨p, hp, hocc⟩
          · left
            rw [replaceAll_cons_neg old new c rest hcond]
            exact List.cons_prefix_cons.mpr ⟨rfl, hleft⟩
          · right
            refine ⟨p + 1, ?_, by simpa using hocc⟩
            simp only [List.length_cons]
            omega

theorem replaceAll_survives (old new w : List Char)
    (hold : old ≠ []) (hw : w ≠ [])
    (hno : noOverlap w (pyLower old) = true) :
    ∀ (N : Nat) (s : List Char), s.length ≤ N →
    ∀ q, w <+: (pyLower s).drop q →
    containsSub w (pyLower (replaceAll old new s)) = true := by
  intro N
  induction N with
  | zero =>
    intro s hlen q hpre
    exfalso
    have hs : s = [] := List.length_eq_zero.mp (Nat.le_zero.mp hlen)
    subst hs
    simp only [pyLower, List.map_nil, List.drop_nil] at hpre
    exact hw (List.prefix_nil.mp hpre)
  | succ N ih =>
    intro s hlen q hpre
    cases s with
    | nil =>
      exfalso
      simp only [pyLower, List.map_nil, List.drop_nil] at hpre
      exact hw (List.prefix_nil.mp hpre)
    | cons c rest =>
      have hlr : rest.length ≤ N := by
        simp only [List.length_cons] at hlen
        omega
      have hwpos : 0 < w.length := List.length_pos.mpr hw
      by_cases hcond : old ≠ [] ∧ old.isPrefixOf (c :: rest)
      · have hplpre : pyLower old <+: pyLower (c :: rest) :=
          (List.isPrefixOf_iff_prefix.mp hcond.2).map Char.toLower
        by_cases hq : q < old.length
        · exfalso
          rcases Nat.eq_zero_or_pos q with hq0 | hqpos
          · subst hq0
            rw [List.drop_zero] at hpre
            rcases List.prefix_or_prefix_of_prefix hpre hplpre with hc | hc
            · exact (noOverlap_fst hno hwpos).1 (by simpa using hc)
            · exact (noOverlap_fst hno hwpos).2 (by simpa using hc)
          · have hqpl : q < (pyLower old).length := by
              rw [pyLower, List.length_map]
              omega
            have hpl : (pyLower old).drop q <+: (pyLower (c :: rest)).drop q :=
              isPrefix_drop hplpre q (Nat.le_of_lt hqpl)
            rcases List.prefix_or_prefix_of_prefix hpre hpl with hc | hc
            · exact (noOverlap_snd hno hqpl).2 hc
            · exact (noOverlap_snd hno hqpl).1 hc
        · rw [Nat.not_lt] at hq
          have hrec : w <+: (pyLower ((c :: rest).drop old.length)).drop (q - old.length) := by
            rw [show pyLower ((c :: rest).drop old.length)
                = (pyLower (c :: rest)).drop old.length from by
                  rw [pyLower, pyLower, List.map_drop],
              List.drop_drop,
              show old.length + (q - old.length) = q from by omega]
            exact hpre
          have holen : old.length ≠ 0 := fun hz => hold (List.length_eq_zero.mp hz)
          have hc := ih ((c :: rest).drop old.length) (by
              simp only [List.length_drop, List.length_cons]
              omega) (q - old.length) hrec
          rw [replaceAll_cons_pos old new c rest hcond,
            show pyLower (new ++ replaceAll old new ((c :: rest).drop old.length))
              = pyLower new ++ pyLower (replaceAll old new ((c :: rest).drop old.length))
              from by simp [pyLower]]
          exact containsSub_append_left _ _ _ hc
      · cases q with
        | zero =>
          rw [List.drop_zero] at hpre
          rcases replaceAll_survive_aux old new (c :: rest).length (c :: rest) w
              le_rfl hpre with hleft | ⟨p, hp, hocc⟩
          · rw [containsSub_iff]
            exact ⟨0, by simpa using hleft⟩
          · exfalso
            rcases Nat.eq_zero_or_pos p with hp0 | hppos
            · subst hp0
              exact hcond ⟨hold, List.isPrefixOf_iff_prefix.mpr (by simpa using hocc)⟩
            · have h1 : pyLower old <+: (pyLower (c :: rest)).drop p := by
                rw [show (pyLower (c :: rest)).drop p = pyLower ((c :: rest).drop p) from by
                  rw [pyLower, pyLower, List.map_drop]]
                exact hocc.map Char.toLower
              have h2 : w.drop p <+: (pyLower (c :: rest)).drop p :=
                isPrefix_drop hpre p (Nat.le_of_lt hp)
              rcases List.prefix_or_prefix_of_prefix h2 h1 with hcase | hcase
              · exact (noOverlap_fst hno hp).1 hcase
              · exact (noOverlap_fst hno hp).2 hcase
        | succ j =>
          have hpre' : w <+: (pyLower rest).drop j := by
            simpa only [pyLower, List.map_cons, List.drop_succ_cons] using hpre
          have hc := ih rest hlr j hpre'
          rw [replaceAll_cons_neg old new c rest hcond]
          rw [show pyLower (c :: replaceAll old new rest)
              = Char.toLower c :: pyLower (replaceAll old new rest) from rfl]
          rw [containsSub]
          simp [hc]

/-- Character class `[a-zA-Z0-9._%+-]` (email local part). -/
def emailLocalClass (c : Char) : Bool :=
  c.isAlpha || c.isDigit || c = '.' || c = '_' || c = '%' || c = '+' || c = '-'

/-- Character class `[a-zA-Z0-9.-]` (email domain part). -/
def emailDomainClass (c : Char) : Bool := c.isAlpha || c.isDigit || c = '.' || c = '-'

/-- Character class `[a-zA-Z]`. -/
def alphaClass (c : Char) : Bool := c.isAlpha

/-- Character class `\d`. -/
def digitClass (c : Char) : Bool := c.isDigit

/-- Character class `[-\.\s]` (phone separators). -/
def sepClass (c : Char) : Bool := c = '-' || c = '.' || c.isWhitespace

/-- Character class `\s`. -/
def spaceClass (c : Char) : Bool := c.isWhitespace

/-- The source's EMAIL pattern `[a-zA-Z0-9._%+-]+@[a-zA-Z0-9.-]+\.[a-zA-Z]{2,}`. -/
def EMAIL_RE : RE :=
  .seqR (.atLeastCls emailLocalClass 1)
    (.seqR (.cls (fun c => c = '@'))
      (.seqR (.atLeastCls emailDomainClass 1)
        (.seqR (.cls (fun c => c = '.'))
          (.atLeastCls alphaClass 2))))

/-- First alternative of the PHONE pattern: `\d{3}[-\.\s]??\d{3}[-\.\s]??\d{4}`. -/
def PHONE_ALT1 : RE :=
  .seqR (.repCls digitClass 3)
    (.seqR (.optLazyCls sepClass)
      (.seqR (.repCls digitClass 3)
        (.seqR (.optLazyCls sepClass)
          (.repCls digitClass 4))))

/-- Second alternative: `\(\d{3}\)\s*\d{3}[-\.\s]??\d{4}`. -/
def PHONE_ALT2 : RE :=
  .seqR (.cls (fun c => c = '('))
    (.seqR (.repCls digitClass 3)
      (.seqR (.cls (fun c => c = ')'))
        (.seqR (.starCls spaceClass)
          (.seqR (.repCls digitClass 3)
            (.seqR (.optLazyCls sepClass)
              (.repCls digitClass 4))))))

/-- The source's PHONE pattern (the outer group is just grouping):
`\d{3}[-\.\s]??\d{3}[-\.\s]??\d{4}|\(\d{3}\)\s*\d{3}[-\.\s]??\d{4}|\d{7}`. -/
def PHONE_RE : RE := .altR PHONE_ALT1 (.altR PHONE_ALT2 (.repCls digitClass 7))

/-- Replacement token `[MASKED_EMAIL]`. -/
def EMAIL_TOKEN : PyStr := "[MASKED_EMAIL]".data

/-- Replacement token `[MASKED_PHONE]`. -/
def PHONE_TOKEN : PyStr := "[MASKED_PHONE]".data

/-- `PostQueryScrubber._mask_value`: the `pii_patterns` loop (EMAIL first,
then PHONE — Python dictionaries iterate in insertion order; each `re.search`
is evaluated on the original text, each `re.sub` on the accumulator), then
the name/address branch, which returns `text.replace(...)` on the *original*
text, discarding `masked_text`. -/
def mask_value (text : PyStr) : PyStr :=
  let masked1 := if search EMAIL_RE text then subAll EMAIL_RE EMAIL_TOKEN text else text
  let masked2 := if search PHONE_RE text then subAll PHONE_RE PHONE_TOKEN masked1 else masked1
  if containsSub "address".data (pyLower text) || containsSub "name".data (pyLower text) then
    replaceAll "John Doe".data "[MASKED_NAME]".data text
  else
    masked2

/-- `PostQueryScrubber.scrub_results`: mask every string-valued field, pass
other values through unchanged. -/
def scrub_results (result_set : List Row) : List Row :=
  result_set.map (fun row => row.map (fun kv =>
    match kv.2 with
    | .vstr s => (kv.1, .vstr (mask_value s))
    | v => (kv.1, v)))

theorem search_false_iff (r : RE) (t : List Char) :
    search r t = false ↔ ∀ i, ¬ MatchAt r t i := by
  constructor
  · intro h i hi
    have := (search_iff r t).mpr ⟨i, hi⟩
    rw [h] at this
    exact Bool.noConfusion this
  · intro h
    rw [← Bool.not_eq_true, search_iff]
    rintro ⟨i, hi⟩
    exact h i hi

theorem containsSub_false_iff (w t : List Char) :
    containsSub w t = false ↔ ∀ i, ¬ w <+: t.drop i := by
  constructor
  · intro h i hi
    have := (containsSub_iff w t).mpr ⟨i, hi⟩
    rw [h] at this
    exact Bool.noConfusion this
  · intro h
    rw [← Bool.not_eq_true, containsSub_iff]
    rintro ⟨i, hi⟩
    exact h i hi

theorem email_not_nullable : ¬ DeclMatch EMAIL_RE [] := by
  rw [DeclMatch_iff_engine]
  decide

theorem phone_not_nullable : ¬ DeclMatch PHONE_RE [] := by
  rw [DeclMatch_iff_engine]
  decide

theorem email_chars_brackets :
    reChars EMAIL_RE '[' = false ∧ reChars EMAIL_RE ']' = false := by
  constructor <;> decide

theorem phone_chars_brackets :
    reChars PHONE_RE '[' = false ∧ reChars PHONE_RE ']' = false := by
  constructor <;> decide

theorem email_token_shape :
    EMAIL_TOKEN = '[' :: "MASKED_EMAIL]".data
    ∧ EMAIL_TOKEN = "[MASKED_EMAIL".data ++ [']'] := by
  constructor <;> decide

theorem phone_token_shape :
    PHONE_TOKEN = '[' :: "MASKED_PHONE]".data
    ∧ PHONE_TOKEN = "[MASKED_PHONE".data ++ [']'] := by
  constructor <;> decide

theorem email_token_no_email : search EMAIL_RE EMAIL_TOKEN = false := by decide

theorem email_token_no_phone : search PHONE_RE EMAIL_TOKEN = false := by decide

theorem phone_token_no_email : search EMAIL_RE PHONE_TOKEN = false := by decide

theorem phone_token_no_phone : search PHONE_RE PHONE_TOKEN = false := by decide

theorem email_token_no_address :
    containsSub "address".data (pyLower EMAIL_TOKEN) = false := by decide

theorem email_token_no_name :
    containsSub "name".data (pyLower EMAIL_TOKEN) = false := by decide

theorem phone_token_no_address :
    containsSub "address".data (pyLower PHONE_TOKEN) = false := by decide

theorem phone_token_no_name :
    containsSub "name".data (pyLower PHONE_TOKEN) = false := by decide

theorem subAll_email_no_substring (w : PyStr) (hw : w ≠ [])
    (hbr1 : '[' ∉ w) (hbr2 : ']' ∉ w)
    (htok : containsSub w (pyLower EMAIL_TOKEN) = false)
    (s : PyStr) (hs : containsSub w (pyLower s) = false) :
    containsSub w (pyLower (subAll EMAIL_RE EMAIL_TOKEN s)) = false := by
  rw [containsSub_false_iff]
  exact subAll_no_substring EMAIL_RE EMAIL_TOKEN "MASKED_EMAIL]".data "[MASKED_EMAIL".data w
    hw hbr1 hbr2 email_token_shape.1 email_token_shape.2
    ((containsSub_false_iff _ _).mp htok) s.length s le_rfl
    ((containsSub_false_iff _ _).mp hs)

theorem subAll_phone_no_substring (w : PyStr) (hw : w ≠ [])
    (hbr1 : '[' ∉ w) (hbr2 : ']' ∉ w)
    (htok : containsSub w (pyLower PHONE_TOKEN) = false)
    (s : PyStr) (hs : containsSub w (pyLower s) = false) :
    containsSub w (pyLower (subAll PHONE_RE PHONE_TOKEN s)) = false := by
  rw [containsSub_false_iff]
  exact subAll_no_substring PHONE_RE PHONE_TOKEN "MASKED_PHONE]".data "[MASKED_PHONE".data w
    hw hbr1 hbr2 phone_token_shape.1 phone_token_shape.2
    ((containsSub_false_iff _ _).mp htok) s.length s le_rfl
    ((containsSub_false_iff _ _).mp hs)

theorem subAll_email_self_clean (s : PyStr) :
    search EMAIL_RE (subAll EMAIL_RE EMAIL_TOKEN s) = false := by
  rw [search_false_iff]
  exact subAll_no_match_self EMAIL_RE EMAIL_TOKEN "MASKED_EMAIL]".data "[MASKED_EMAIL".data
    email_not_nullable email_chars_brackets.1 email_chars_brackets.2
    email_token_shape.1 email_token_shape.2
    ((search_false_iff _ _).mp email_token_no_email) s.length s le_rfl

theorem subAll_phone_self_clean (s : PyStr) :
    search PHONE_RE (subAll PHONE_RE PHONE_TOKEN s) = false := by
  rw [search_false_iff]
  exact subAll_no_match_self PHONE_RE PHONE_TOKEN "MASKED_PHONE]".data "[MASKED_PHONE".data
    phone_not_nullable phone_chars_brackets.1 phone_chars_brackets.2
    phone_token_shape.1 phone_token_shape.2
    ((search_false_iff _ _).mp phone_token_no_phone) s.length s le_rfl

theorem subAll_phone_keeps_email_clean (s : PyStr)
    (hs : search EMAIL_RE s = false) :
    search EMAIL_RE (subAll PHONE_RE PHONE_TOKEN s) = false := by
  rw [search_false_iff]
  exact subAll_no_match_cross EMAIL_RE PHONE_RE PHONE_TOKEN "MASKED_PHONE]".data
    "[MASKED_PHONE".data email_not_nullable email_chars_brackets.1 email_chars_brackets.2
    phone_token_shape.1 phone_token_shape.2
    ((search_false_iff _ _).mp phone_token_no_email) s.length s le_rfl
    ((search_false_iff _ _).mp hs)

theorem subAll_email_keeps_phone_clean (s : PyStr)
    (hs : search PHONE_RE s = false) :
    search PHONE_RE (subAll EMAIL_RE EMAIL_TOKEN s) = false := by
  rw [search_false_iff]
  exact subAll_no_match_cross PHONE_RE EMAIL_RE EMAIL_TOKEN "MASKED_EMAIL]".data
    "[MASKED_EMAIL".data phone_not_nullable phone_chars_brackets.1 phone_chars_brackets.2
    email_token_shape.1 email_token_shape.2
    ((search_false_iff _ _).mp email_token_no_phone) s.length s le_rfl
    ((search_false_iff _ _).mp hs)

theorem mask_value_nobranch_clean (s : PyStr)
    (hcond : (containsSub "address".data (pyLower s)
        || containsSub "name".data (pyLower s)) = false) :
    search EMAIL_RE (mask_value s) = false
    ∧ search PHONE_RE (mask_value s) = false
    ∧ (containsSub "address".data (pyLower (mask_value s))
        || containsSub "name".data (pyLower (mask_value s))) = false := by
  obtain ⟨haddr, hname⟩ := Bool.or_eq_false_iff.mp hcond
  by_cases hgE : search EMAIL_RE s = true
  · by_cases hgP : search PHONE_RE s = true
    · have hval : mask_value s
          = subAll PHONE_RE PHONE_TOKEN (subAll EMAIL_RE EMAIL_TOKEN s) := by
        unfold mask_value
        simp [hgE, hgP, hcond]
      rw [hval]
      refine ⟨subAll_phone_keeps_email_clean _ (subAll_email_self_clean s),
        subAll_phone_self_clean _, ?_⟩
      rw [Bool.or_eq_false_iff]
      constructor
      · exact subAll_phone_no_substring _ (by decide) (by decide) (by decide)
          phone_token_no_address _
          (subAll_email_no_substring _ (by decide) (by decide) (by decide)
            email_token_no_address s haddr)
      · exact subAll_phone_no_substring _ (by decide) (by decide) (by decide)
          phone_token_no_name _
          (subAll_email_no_substring _ (by decide) (by decide) (by decide)
            email_token_no_name s hname)
    · have hgP' : search PHONE_RE s = false := Bool.not_eq_true _ ▸ eq_false_of_ne_true hgP
      have hval : mask_value s = subAll EMAIL_RE EMAIL_TOKEN s := by
        unfold mask_value
        simp [hgE, hgP', hcond]
      rw [hval]
      refine ⟨subAll_email_self_clean s,
        subAll_email_keeps_phone_clean _ hgP', ?_⟩
      rw [Bool.or_eq_false_iff]
      exact ⟨subAll_email_no_substring _ (by decide) (by decide) (by decide)
          email_token_no_address s haddr,
        subAll_email_no_substring _ (by decide) (by decide) (by decide)
          email_token_no_name s hname⟩
  · have hgE' : search EMAIL_RE s = false := eq_false_of_ne_true hgE
    by_cases hgP : search PHONE_RE s = true
    · have hval : mask_value s = subAll PHONE_RE PHONE_TOKEN s := by
        unfold mask_value
        simp [hgE', hgP, hcond]
      rw [hval]
      refine ⟨subAll_phone_keeps_email_clean _ hgE',
        subAll_phone_self_clean s, ?_⟩
      rw [Bool.or_eq_false_iff]
      exact ⟨subAll_phone_no_substring _ (by decide) (by decide) (by decide)
          phone_token_no_address s haddr,
        subAll_phone_no_substring _ (by decide) (by decide) (by decide)
          phone_token_no_name s hname⟩
    · have hgP' : search PHONE_RE s = false := eq_false_of_ne_true hgP
      have hval : mask_value s = s := by
        unfold mask_value
        simp [hgE', hgP', hcond]
      rw [hval]
      exact ⟨hgE', hgP', hcond⟩

theorem name_address_survive_replace (s : PyStr)
    (hcond : (containsSub "address".data (pyLower s)
        || containsSub "name".data (pyLower s)) = true) :
    (containsSub "address".data
        (pyLower (replaceAll "John Doe".data "[MASKED_NAME]".data s))
      || containsSub "name".data
        (pyLower (replaceAll "John Doe".data "[MASKED_NAME]".data s))) = true := by
  rw [Bool.or_eq_true] at hcond ⊢
  rcases hcond with h | h
  · obtain ⟨q, hq⟩ := (containsSub_iff _ _).mp h
    exact Or.inl (replaceAll_survives "John Doe".data "[MASKED_NAME]".data "address".data
      (by decide) (by decide) (by decide) s.length s le_rfl q hq)
  · obtain ⟨q, hq⟩ := (containsSub_iff _ _).mp h
    exact Or.inr (replaceAll_survives "John Doe".data "[MASKED_NAME]".data "name".data
      (by decide) (by decide) (by decide) s.length s le_rfl q hq)

/-- The central value-level fact behind C9: `_mask_value` is idempotent. -/
theorem mask_value_idempotent (s : PyStr) :
    mask_value (mask_value s) = mask_value s := by
  by_cases hcond : (containsSub "address".data (pyLower s)
      || containsSub "name".data (pyLower s)) = true
  · have hy : mask_value s = replaceAll "John Doe".data "[MASKED_NAME]".data s := by
      unfold mask_value
      simp [hcond]
    have hcondy := name_address_survive_replace s hcond
    have hnojd : ∀ i, ¬ "John Doe".data <+:
        (replaceAll "John Doe".data "[MASKED_NAME]".data s).drop i :=
      replaceAll_no_occurrence "John Doe".data "[MASKED_NAME]".data "MASKED_NAME]".data
        "[MASKED_NAME".data (by decide) (by decide) (by decide) (by decide) (by decide)
        ((containsSub_false_iff _ _).mp (by decide)) s.length s le_rfl
    rw [hy]
    unfold mask_value
    simp only [hcondy, if_pos]
    exact replaceAll_of_no_occurrence _ _
      (replaceAll "John Doe".data "[MASKED_NAME]".data s).length _ le_rfl hnojd
  · have hcond' : (containsSub "address".data (pyLower s)
        || containsSub "name".data (pyLower s)) = false := eq_false_of_ne_true hcond
    obtain ⟨hE, hP, hC⟩ := mask_value_nobranch_clean s hcond'
    conv_lhs => rw [mask_value]
    simp [hE, hP, hC]

/-- C9: `scrub_results` is idempotent: scrubbing twice equals scrubbing once. -/
theorem scrub_results_idempotent (result_set : List Row) :
    scrub_results (scrub_results result_set) = scrub_results result_set := by
  unfold scrub_results
  rw [List.map_map]
  apply List.map_congr_left
  intro row _
  simp only [Function.comp_apply, List.map_map]
  apply List.map_congr_left
  intro kv _
  cases hv : kv.2 with
  | vstr s => simp [Function.comp_apply, hv, mask_value_idempotent]
  | vint n => simp [Function.comp_apply, hv]
  | vnone => simp [Function.comp_apply, hv]

/-- C8: `scrub_results` is expected to replace each email-shaped substring
with the mask token while preserving surrounding text, but the name/address
branch of `_mask_value` returns the *original* text (only substituting the
literal `John Doe`), discarding the masking: a value containing the substring
"name" keeps its email verbatim, while the same value without "name" is
masked as specified. -/
theorem scrub_results_name_branch_bug :
    scrub_results [[("contact".data, .vstr "Customer name: alice@example.com".data)]]
      = [[("contact".data, .vstr "Customer name: alice@example.com".data)]]
    ∧ scrub_results [[("contact".data, .vstr "Reach me at alice@example.com".data)]]
      = [[("contact".data, .vstr "Reach me at [MASKED_EMAIL]".data)]] := by
  constructor
  · decide
  · decide
